import Mathlib

/-!
# Verification of the AEGIS core (crypto envelope, Shamir splitting, check-in protocol)

Shallow embedding of the AEGIS client-side dead-man's-switch core:

* `js/lang.js` (`AegisShamir`): GF(256) log/antilog tables, `gfMul`, `gfDiv`,
  `evaluatePolynomial`, `lagrangeInterpolate`, `split`, `combine`.
* `crypto.js` (`AegisCrypto`): the envelope wrappers around the WebCrypto
  AES-GCM primitive (the primitive itself is outside the repository and is
  modelled from the spec as an ideal authenticated cipher).
* `js/checkin.js` (`AegisCheckin`): `generateToken`, `verifyToken`,
  `getEscalationLevel`.

JavaScript numbers are embedded as `Nat`/`Int`/`Rat`; `Uint8Array`s as
`List Nat` of values `< 256`; fallible code returns `Except`/`Option`.
Random draws and the current time are passed as explicit arguments.
-/

namespace Aegis

/-! ## GF(256) tables — from `js/lang.js` `initTables`

The source builds `EXP_TABLE : Uint8Array(512)` and `LOG_TABLE : Uint8Array(256)`
with the loop
```
let x = 1;
for (let i = 0; i < 255; i++) {
  EXP_TABLE[i] = x; LOG_TABLE[x] = i;
  x = x ^ (x << 1);
  if (x >= 256) x ^= 0x11b;
}
for (let i = 255; i < 512; i++) EXP_TABLE[i] = EXP_TABLE[i - 255];
```
`step3` is one iteration of the update of `x` (multiplication by the generator
3 with 0x11b reduction); `pow3 n` is `x` after `n` iterations. -/

/-- One step of the table-generator loop: `x = x ^ (x << 1); if (x >= 256) x ^= 0x11b`. -/
def step3 (x : Nat) : Nat :=
  let y := x ^^^ (x <<< 1)
  if 256 ≤ y then y ^^^ 0x11b else y

/-- The generator value after `n` loop iterations (`pow3 0 = 1` is the initial `x`). -/
def pow3 : Nat → Nat
  | 0 => 1
  | n + 1 => step3 (pow3 n)

/-- The first `initTables` loop: state is `(x, EXP_TABLE, LOG_TABLE)`. -/
def initTablesLoop1 : Nat × List Nat × List Nat :=
  (List.range 255).foldl
    (fun s i =>
      let x := s.1
      let e := s.2.1
      let l := s.2.2
      (step3 x, e.set i x, l.set x i))
    (1, List.replicate 512 0, List.replicate 256 0)

/-- The second `initTables` loop: `EXP_TABLE[i] = EXP_TABLE[i - 255]` for `i ∈ [255, 512)`. -/
def expTable : List Nat :=
  (List.range 257).foldl (fun e k => e.set (k + 255) (e.getD k 0)) initTablesLoop1.2.1

/-- The finished `LOG_TABLE` (only the first loop writes it). -/
def logTable : List Nat :=
  initTablesLoop1.2.2

/-- Lookup `EXP_TABLE[i]` (0 outside the array, matching the `Uint8Array` fill). -/
def EXPT (i : Nat) : Nat := expTable.getD i 0

/-- Lookup `LOG_TABLE[x]` (0 outside the array). -/
def LOGT (x : Nat) : Nat := logTable.getD x 0

/-- The contents of `EXP_TABLE` after initialization, as a literal. -/
def expLit : List Nat :=
  [1,3,5,15,17,51,85,255,26,46,114,150,161,248,19,53,95,225,56,72,216,115,149,164,247,2,6,10,30,34,102,170,229,52,92,228,55,89,235,38,106,190,217,112,144,171,230,49,83,245,4,12,20,60,68,204,79,209,104,184,211,110,178,205,76,212,103,169,224,59,77,215,98,166,241,8,24,40,120,136,131,158,185,208,107,189,220,127,129,152,179,206,73,219,118,154,181,196,87,249,16,48,80,240,11,29,39,105,187,214,97,163,254,25,43,125,135,146,173,236,47,113,147,174,233,32,96,160,251,22,58,78,210,109,183,194,93,231,50,86,250,21,63,65,195,94,226,61,71,201,64,192,91,237,44,116,156,191,218,117,159,186,213,100,172,239,42,126,130,157,188,223,122,142,137,128,155,182,193,88,232,35,101,175,234,37,111,177,200,67,197,84,252,31,33,99,165,244,7,9,27,45,119,153,176,203,70,202,69,207,74,222,121,139,134,145,168,227,62,66,198,81,243,14,18,54,90,238,41,123,141,140,143,138,133,148,167,242,13,23,57,75,221,124,132,151,162,253,28,36,108,180,199,82,246,1,3,5,15,17,51,85,255,26,46,114,150,161,248,19,53,95,225,56,72,216,115,149,164,247,2,6,10,30,34,102,170,229,52,92,228,55,89,235,38,106,190,217,112,144,171,230,49,83,245,4,12,20,60,68,204,79,209,104,184,211,110,178,205,76,212,103,169,224,59,77,215,98,166,241,8,24,40,120,136,131,158,185,208,107,189,220,127,129,152,179,206,73,219,118,154,181,196,87,249,16,48,80,240,11,29,39,105,187,214,97,163,254,25,43,125,135,146,173,236,47,113,147,174,233,32,96,160,251,22,58,78,210,109,183,194,93,231,50,86,250,21,63,65,195,94,226,61,71,201,64,192,91,237,44,116,156,191,218,117,159,186,213,100,172,239,42,126,130,157,188,223,122,142,137,128,155,182,193,88,232,35,101,175,234,37,111,177,200,67,197,84,252,31,33,99,165,244,7,9,27,45,119,153,176,203,70,202,69,207,74,222,121,139,134,145,168,227,62,66,198,81,243,14,18,54,90,238,41,123,141,140,143,138,133,148,167,242,13,23,57,75,221,124,132,151,162,253,28,36,108,180,199,82,246,1,3]

/-- The contents of `LOG_TABLE` after initialization, as a literal. -/
def logLit : List Nat :=
  [0,0,25,1,50,2,26,198,75,199,27,104,51,238,223,3,100,4,224,14,52,141,129,239,76,113,8,200,248,105,28,193,125,194,29,181,249,185,39,106,77,228,166,114,154,201,9,120,101,47,138,5,33,15,225,36,18,240,130,69,53,147,218,142,150,143,219,189,54,208,206,148,19,92,210,241,64,70,131,56,102,221,253,48,191,6,139,98,179,37,226,152,34,136,145,16,126,110,72,195,163,182,30,66,58,107,40,84,250,133,61,186,43,121,10,21,155,159,94,202,78,212,172,229,243,115,167,87,175,88,168,80,244,234,214,116,79,174,233,213,231,230,173,232,44,215,117,122,235,22,11,245,89,203,95,176,156,169,81,160,127,12,246,111,23,196,73,236,216,67,31,45,164,118,123,183,204,187,62,90,251,96,177,134,59,82,161,108,170,85,41,157,151,178,135,144,97,190,220,252,188,149,207,205,55,63,91,209,83,57,132,60,65,162,109,71,20,42,158,93,86,242,211,171,68,17,146,217,35,32,46,137,180,124,184,38,119,153,227,165,103,74,237,222,197,49,254,24,13,99,140,128,192,247,112,7]

set_option maxRecDepth 100000

theorem expTable_eq_lit : expTable = expLit := by decide

theorem logTable_eq_lit : logTable = logLit := by decide

/-! ## GF(256) arithmetic — `gfMul`, `gfDiv` from `js/lang.js` -/

/-- Source `gfMul(a, b)`: `if (a === 0 || b === 0) return 0; return EXP_TABLE[LOG_TABLE[a] + LOG_TABLE[b]];` -/
def gfMul (a b : Nat) : Nat :=
  if a = 0 || b = 0 then 0 else EXPT (LOGT a + LOGT b)

/-- Source `gfDiv(a, b)`: throws `'Division by zero'` when `b = 0`, else
`EXP_TABLE[(LOG_TABLE[a] - LOG_TABLE[b] + 255) % 255]` (JS `%` on the
non-negative intermediate equals `Int.emod`). -/
def gfDivE (a b : Nat) : Except String Nat :=
  if b = 0 then .error "Division by zero"
  else if a = 0 then .ok 0
  else .ok (EXPT (((LOGT a : Int) - LOGT b + 255) % 255).toNat)

/-! ### Table facts, proved on the literal tables -/

theorem expLit_getD : ∀ i < 512, expLit.getD i 0 = pow3 (i % 255) := by decide

theorem pow3_bound : ∀ i < 255, pow3 i < 256 ∧ pow3 i ≠ 0 := by decide

theorem logLit_pow3 : ∀ i < 255, logLit.getD (pow3 i) 0 = i := by decide

theorem pow3_logLit : ∀ x < 256, 0 < x → pow3 (logLit.getD x 0) = x := by decide

theorem logLit_lt : ∀ x < 256, logLit.getD x 0 < 255 := by decide

theorem pow3_255 : pow3 255 = 1 := by decide

theorem logLit_one : logLit.getD 1 0 = 0 := by decide

theorem EXPT_eq (i : Nat) (h : i < 512) : EXPT i = pow3 (i % 255) := by
  unfold EXPT; rw [expTable_eq_lit]; exact expLit_getD i h

theorem LOGT_pow3 (i : Nat) (h : i < 255) : LOGT (pow3 i) = i := by
  unfold LOGT; rw [logTable_eq_lit]; exact logLit_pow3 i h

theorem pow3_LOGT (x : Nat) (h : x < 256) (h0 : 0 < x) : pow3 (LOGT x) = x := by
  unfold LOGT; rw [logTable_eq_lit]; exact pow3_logLit x h h0

theorem LOGT_lt (x : Nat) (h : x < 256) : LOGT x < 255 := by
  unfold LOGT; rw [logTable_eq_lit]; exact logLit_lt x h

theorem LOGT_one : LOGT 1 = 0 := by
  unfold LOGT; rw [logTable_eq_lit]; exact logLit_one

/-! ### The generator map `step3` and its periodicity -/

theorem pow3_add255 (n : Nat) : pow3 (n + 255) = pow3 n := by
  induction n with
  | zero => exact pow3_255
  | succ n ih =>
    have h : n + 1 + 255 = (n + 255) + 1 := by omega
    rw [h]; show step3 (pow3 (n + 255)) = step3 (pow3 n); rw [ih]

theorem pow3_mod (n : Nat) : pow3 (n % 255) = pow3 n := by
  induction n using Nat.strong_induction_on with
  | _ n ih =>
    by_cases h : n < 255
    · rw [Nat.mod_eq_of_lt h]
    · have h2 : n = (n - 255) + 255 := by omega
      rw [h2, pow3_add255, ← ih (n - 255) (by omega), Nat.add_mod_right]

theorem pow3_lt (n : Nat) : pow3 n < 256 := by
  rw [← pow3_mod]
  exact (pow3_bound (n % 255) (Nat.mod_lt _ (by omega))).1

theorem pow3_ne_zero (n : Nat) : pow3 n ≠ 0 := by
  rw [← pow3_mod]
  exact (pow3_bound (n % 255) (Nat.mod_lt _ (by omega))).2

/-! ### Additivity of `step3` over xor, hence distributivity of `gfMul` -/

theorem xor256 : ∀ r < 256, 256 ^^^ r = 256 + r := by decide

theorem shiftLeft_xor_distrib (a b : Nat) : (a ^^^ b) <<< 1 = (a <<< 1) ^^^ (b <<< 1) := by
  apply Nat.eq_of_testBit_eq
  intro i
  simp only [Nat.testBit_shiftLeft, Nat.testBit_xor]
  cases h : decide (1 ≤ i) <;> simp

theorem xor_xor_xor_comm (a b c d : Nat) : (a ^^^ b) ^^^ (c ^^^ d) = (a ^^^ c) ^^^ (b ^^^ d) := by
  rw [Nat.xor_assoc, ← Nat.xor_assoc b c d, Nat.xor_comm b c, Nat.xor_assoc c b d,
    ← Nat.xor_assoc]

theorem xor_lt_256 {x y : Nat} (hx : x < 256) (hy : y < 256) : x ^^^ y < 256 :=
  Nat.xor_lt_two_pow (n := 8) hx hy

theorem xor_lt_512 {x y : Nat} (hx : x < 512) (hy : y < 512) : x ^^^ y < 512 :=
  Nat.xor_lt_two_pow (n := 9) hx hy

theorem xor_hi_lo {r s : Nat} (hr : r < 256) (hs : s < 256) :
    (256 + r) ^^^ s = 256 + (r ^^^ s) := by
  rw [← xor256 r hr, Nat.xor_assoc, xor256 (r ^^^ s) (xor_lt_256 hr hs)]

theorem xor_hi_hi {r s : Nat} (hr : r < 256) (hs : s < 256) :
    (256 + r) ^^^ (256 + s) = r ^^^ s := by
  rw [← xor256 r hr, ← xor256 s hs, xor_xor_xor_comm, Nat.xor_self, Nat.zero_xor]

/-- The conditional 0x11b reduction step distributes over xor on `[0, 512)`. -/
theorem red_xor (z w : Nat) (hz : z < 512) (hw : w < 512) :
    (if 256 ≤ z ^^^ w then (z ^^^ w) ^^^ 0x11b else z ^^^ w) =
      (if 256 ≤ z then z ^^^ 0x11b else z) ^^^ (if 256 ≤ w then w ^^^ 0x11b else w) := by
  by_cases h1 : 256 ≤ z <;> by_cases h2 : 256 ≤ w
  · have hz2 : z = 256 + (z - 256) := by omega
    have hw2 : w = 256 + (w - 256) := by omega
    have hlo : z ^^^ w < 256 := by
      rw [hz2, hw2, xor_hi_hi (by omega) (by omega)]
      exact xor_lt_256 (by omega) (by omega)
    rw [if_neg (by omega), if_pos h1, if_pos h2, xor_xor_xor_comm, Nat.xor_self, Nat.xor_zero]
  · have hz2 : z = 256 + (z - 256) := by omega
    have hhi : 256 ≤ z ^^^ w := by
      rw [hz2, xor_hi_lo (by omega) (by omega)]; omega
    rw [if_pos hhi, if_pos h1, if_neg h2, Nat.xor_assoc, Nat.xor_comm w 0x11b,
      ← Nat.xor_assoc]
  · have hw2 : w = 256 + (w - 256) := by omega
    have hhi : 256 ≤ z ^^^ w := by
      rw [Nat.xor_comm, hw2, xor_hi_lo (by omega) (by omega)]; omega
    rw [if_pos hhi, if_neg h1, if_pos h2, Nat.xor_assoc]
  · rw [if_neg (by have := xor_lt_256 (by omega : z < 256) (by omega : w < 256); omega),
      if_neg h1, if_neg h2]

theorem step3_xor (x y : Nat) (hx : x < 256) (hy : y < 256) :
    step3 (x ^^^ y) = step3 x ^^^ step3 y := by
  unfold step3
  simp only
  rw [shiftLeft_xor_distrib, xor_xor_xor_comm]
  exact red_xor _ _
    (xor_lt_512 (by omega) (by rw [Nat.shiftLeft_eq]; omega))
    (xor_lt_512 (by omega) (by rw [Nat.shiftLeft_eq]; omega))

theorem step3_zero : step3 0 = 0 := by decide

theorem step3_lt : ∀ x < 256, step3 x < 256 := by decide

theorem iter_step3_lt (k : Nat) : ∀ x < 256, step3^[k] x < 256 := by
  induction k with
  | zero => intro x hx; simpa using hx
  | succ k ih =>
    intro x hx
    rw [Function.iterate_succ_apply]
    exact ih _ (step3_lt x hx)

theorem iter_step3_zero (k : Nat) : step3^[k] 0 = 0 := by
  induction k with
  | zero => rfl
  | succ k ih => rw [Function.iterate_succ_apply, step3_zero, ih]

theorem iter_step3_xor (k x y : Nat) (hx : x < 256) (hy : y < 256) :
    step3^[k] (x ^^^ y) = step3^[k] x ^^^ step3^[k] y := by
  induction k generalizing x y with
  | zero => rfl
  | succ k ih =>
    rw [Function.iterate_succ_apply, Function.iterate_succ_apply,
      Function.iterate_succ_apply, step3_xor x y hx hy]
    exact ih _ _ (step3_lt x hx) (step3_lt y hy)

theorem pow3_iter (k j : Nat) : pow3 (k + j) = step3^[k] (pow3 j) := by
  induction k with
  | zero => simp
  | succ k ih =>
    have h : k + 1 + j = (k + j) + 1 := by omega
    rw [h, Function.iterate_succ_apply']
    show step3 (pow3 (k + j)) = step3 (step3^[k] (pow3 j))
    rw [ih]

/-! ### `gfMul` as an iterate of `step3`; algebraic laws -/

theorem gfMul_cond_neg {a b : Nat} (ha : 0 < a) (hb : 0 < b) :
    ¬((a = 0 || b = 0) = true) := by
  simp only [Bool.or_eq_true, decide_eq_true_eq]
  omega

theorem gfMul_pos_eq (a b : Nat) (ha : 0 < a) (hb : 0 < b) :
    gfMul a b = EXPT (LOGT a + LOGT b) := by
  rw [gfMul, if_neg (gfMul_cond_neg ha hb)]

theorem gfMul_eq_iter (a x : Nat) (ha0 : 0 < a) (ha : a < 256) (hx : x < 256) :
    gfMul a x = step3^[LOGT a] x := by
  by_cases hx0 : x = 0
  · subst hx0
    rw [iter_step3_zero]
    simp [gfMul]
  · have hx0 : 0 < x := by omega
    have hla := LOGT_lt a ha
    have hlx := LOGT_lt x hx
    rw [gfMul_pos_eq a x ha0 hx0, EXPT_eq _ (by omega), pow3_mod, pow3_iter,
      pow3_LOGT x hx hx0]

theorem gfMul_lt (a b : Nat) : gfMul a b < 256 := by
  unfold gfMul
  split
  · omega
  · next h =>
    by_cases hidx : LOGT a + LOGT b < 512
    · rw [EXPT_eq _ hidx]; exact pow3_lt _
    · unfold EXPT
      rw [List.getD_eq_default]
      · omega
      · rw [expTable_eq_lit]
        have : expLit.length = 512 := by decide
        omega

theorem gfMul_zero_left (b : Nat) : gfMul 0 b = 0 := by simp [gfMul]

theorem gfMul_zero_right (a : Nat) : gfMul a 0 = 0 := by simp [gfMul]

theorem gfMul_comm (a b : Nat) : gfMul a b = gfMul b a := by
  unfold gfMul
  rw [Nat.add_comm, Bool.or_comm]

theorem gfMul_pow3_form (a b : Nat) (ha : 0 < a) (hb : 0 < b) (ha2 : a < 256) (hb2 : b < 256) :
    gfMul a b = pow3 ((LOGT a + LOGT b) % 255) := by
  have hla := LOGT_lt a ha2
  have hlb := LOGT_lt b hb2
  rw [gfMul_pos_eq a b ha hb, EXPT_eq _ (by omega)]

theorem gfMul_ne_zero (a b : Nat) (ha : 0 < a) (hb : 0 < b) (ha2 : a < 256) (hb2 : b < 256) :
    gfMul a b ≠ 0 := by
  rw [gfMul_pow3_form a b ha hb ha2 hb2]
  exact pow3_ne_zero _

theorem LOGT_gfMul (a b : Nat) (ha : 0 < a) (hb : 0 < b) (ha2 : a < 256) (hb2 : b < 256) :
    LOGT (gfMul a b) = (LOGT a + LOGT b) % 255 := by
  rw [gfMul_pow3_form a b ha hb ha2 hb2]
  exact LOGT_pow3 _ (by omega)

theorem gfMul_assoc (a b c : Nat) (ha : a < 256) (hb : b < 256) (hc : c < 256) :
    gfMul (gfMul a b) c = gfMul a (gfMul b c) := by
  by_cases ha0 : a = 0
  · subst ha0; simp [gfMul_zero_left, gfMul_zero_right]
  by_cases hb0 : b = 0
  · subst hb0; simp [gfMul_zero_left, gfMul_zero_right]
  by_cases hc0 : c = 0
  · subst hc0; simp [gfMul_zero_left, gfMul_zero_right]
  have ha0 : 0 < a := by omega
  have hb0 : 0 < b := by omega
  have hc0 : 0 < c := by omega
  have hab0 : 0 < gfMul a b := Nat.pos_of_ne_zero (gfMul_ne_zero a b ha0 hb0 ha hb)
  have hbc0 : 0 < gfMul b c := Nat.pos_of_ne_zero (gfMul_ne_zero b c hb0 hc0 hb hc)
  have h1 : gfMul (gfMul a b) c = pow3 (((LOGT a + LOGT b) % 255 + LOGT c) % 255) := by
    rw [gfMul_pow3_form _ c hab0 hc0 (gfMul_lt a b) hc, LOGT_gfMul a b ha0 hb0 ha hb]
  have h2 : gfMul a (gfMul b c) = pow3 ((LOGT a + (LOGT b + LOGT c) % 255) % 255) := by
    rw [gfMul_pow3_form a _ ha0 hbc0 ha (gfMul_lt b c), LOGT_gfMul b c hb0 hc0 hb hc]
  rw [h1, h2]
  congr 1
  omega

theorem gfMul_one (a : Nat) (ha : a < 256) : gfMul a 1 = a := by
  by_cases ha0 : a = 0
  · subst ha0; simp [gfMul_zero_left]
  · have ha0 : 0 < a := by omega
    have hla := LOGT_lt a ha
    rw [gfMul_pow3_form a 1 ha0 (by omega) ha (by omega), LOGT_one, Nat.add_zero,
      Nat.mod_eq_of_lt hla, pow3_LOGT a ha ha0]

theorem gfMul_xor (a x y : Nat) (ha : a < 256) (hx : x < 256) (hy : y < 256) :
    gfMul a (x ^^^ y) = gfMul a x ^^^ gfMul a y := by
  by_cases ha0 : a = 0
  · subst ha0; simp [gfMul_zero_left]
  · rw [gfMul_eq_iter a _ (by omega) ha (xor_lt_256 hx hy),
      gfMul_eq_iter a x (by omega) ha hx, gfMul_eq_iter a y (by omega) ha hy]
    exact iter_step3_xor _ x y hx hy

/-! ### Inversion via `gfDiv(1, ·)` -/

/-- The value `gfDiv(1, b)` computes for `b ≠ 0` (the multiplicative inverse). -/
def ginvVal (b : Nat) : Nat := pow3 ((255 - LOGT b) % 255)

theorem gfDivE_one (b : Nat) (hb0 : 0 < b) (hb : b < 256) :
    gfDivE 1 b = .ok (ginvVal b) := by
  have hlb := LOGT_lt b hb
  rw [gfDivE, if_neg (by omega), if_neg (by omega), LOGT_one]
  have h1 : (((0 : Nat) : Int) - LOGT b + 255) % 255 = ((255 - LOGT b) % 255 : Nat) := by
    push_cast
    omega
  rw [h1, Int.toNat_ofNat, ginvVal, EXPT_eq _ (by omega)]
  have h2 : (255 - LOGT b) % 255 % 255 = (255 - LOGT b) % 255 := by omega
  rw [h2]

theorem ginvVal_lt (b : Nat) : ginvVal b < 256 := pow3_lt _

theorem gfMul_ginvVal (b : Nat) (hb0 : 0 < b) (hb : b < 256) :
    gfMul b (ginvVal b) = 1 := by
  have hlb := LOGT_lt b hb
  have hinv0 : 0 < ginvVal b := Nat.pos_of_ne_zero (pow3_ne_zero _)
  rw [gfMul_pow3_form b _ hb0 hinv0 hb (ginvVal_lt b), ginvVal,
    LOGT_pow3 _ (by omega)]
  have h : (LOGT b + (255 - LOGT b) % 255) % 255 = 0 := by omega
  rw [h]
  rfl

/-! ### `GF256`: the byte field carried by the table arithmetic -/

/-- Bytes with the `js/lang.js` arithmetic: `^` as addition, `gfMul` as
multiplication, `gfDiv(1, ·)` as inversion. -/
def GF256 : Type := {x : Nat // x < 256}

instance : DecidableEq GF256 := fun a b =>
  decidable_of_iff (a.1 = b.1) Subtype.ext_iff.symm

instance : Zero GF256 := ⟨⟨0, by omega⟩⟩

instance : One GF256 := ⟨⟨1, by omega⟩⟩

instance : Add GF256 := ⟨fun a b => ⟨a.1 ^^^ b.1, xor_lt_256 a.2 b.2⟩⟩

instance : Mul GF256 := ⟨fun a b => ⟨gfMul a.1 b.1, gfMul_lt a.1 b.1⟩⟩

instance : Neg GF256 := ⟨fun a => a⟩

instance : Inv GF256 := ⟨fun a => if h : a.1 = 0 then ⟨0, by omega⟩ else
  ⟨ginvVal a.1, ginvVal_lt a.1⟩⟩

theorem GF256.val_add (a b : GF256) : (a + b).1 = a.1 ^^^ b.1 := rfl

theorem GF256.val_mul (a b : GF256) : (a * b).1 = gfMul a.1 b.1 := rfl

theorem GF256.val_zero : (0 : GF256).1 = 0 := rfl

theorem GF256.val_one : (1 : GF256).1 = 1 := rfl

theorem GF256.ext {a b : GF256} (h : a.1 = b.1) : a = b := Subtype.ext h

instance : CommRing GF256 where
  nsmul := nsmulRec
  zsmul := zsmulRec
  add_assoc a b c := GF256.ext (Nat.xor_assoc a.1 b.1 c.1)
  zero_add a := GF256.ext (Nat.zero_xor a.1)
  add_zero a := GF256.ext (Nat.xor_zero a.1)
  add_comm a b := GF256.ext (Nat.xor_comm a.1 b.1)
  neg_add_cancel a := GF256.ext (Nat.xor_self a.1)
  mul_assoc a b c := GF256.ext (gfMul_assoc a.1 b.1 c.1 a.2 b.2 c.2)
  one_mul a := GF256.ext (by rw [GF256.val_mul, GF256.val_one, gfMul_comm, gfMul_one a.1 a.2])
  mul_one a := GF256.ext (by rw [GF256.val_mul, GF256.val_one, gfMul_one a.1 a.2])
  mul_comm a b := GF256.ext (gfMul_comm a.1 b.1)
  left_distrib a b c := GF256.ext (gfMul_xor a.1 b.1 c.1 a.2 b.2 c.2)
  right_distrib a b c := GF256.ext (by
    rw [GF256.val_mul, GF256.val_add, gfMul_comm, gfMul_xor c.1 a.1 b.1 c.2 a.2 b.2,
      GF256.val_add, GF256.val_mul, GF256.val_mul, gfMul_comm c.1 a.1, gfMul_comm c.1 b.1])
  zero_mul a := GF256.ext (gfMul_zero_left a.1)
  mul_zero a := GF256.ext (gfMul_zero_right a.1)

instance : Field GF256 where
  nnqsmul := _
  qsmul := _
  exists_pair_ne := ⟨0, 1, fun h => by
    have := congrArg Subtype.val h
    simp [GF256.val_zero, GF256.val_one] at this⟩
  mul_inv_cancel a ha := by
    have ha1 : a.1 ≠ 0 := fun h => ha (GF256.ext h)
    apply GF256.ext
    rw [GF256.val_mul]
    show gfMul a.1 (if h : a.1 = 0 then (⟨0, by omega⟩ : GF256) else
      ⟨ginvVal a.1, ginvVal_lt a.1⟩).1 = (1 : GF256).1
    rw [dif_neg ha1]
    exact gfMul_ginvVal a.1 (Nat.pos_of_ne_zero ha1) a.2
  inv_zero := rfl

theorem GF256.val_neg (a : GF256) : (-a).1 = a.1 := rfl

theorem GF256.val_sub (a b : GF256) : (a - b).1 = a.1 ^^^ b.1 := by
  rw [sub_eq_add_neg]; rfl

/-! ## Shamir splitting — from `js/lang.js` (`AegisShamir`) -/

/-- A share object `{ id, threshold, totalShares, data }` as built by `split`. -/
structure Share where
  id : Nat
  threshold : Nat
  totalShares : Nat
  data : List Nat
deriving DecidableEq

instance : Inhabited Share := ⟨⟨0, 0, 0, []⟩⟩

/-- Source `evaluatePolynomial(coeffs, x)`: Horner loop
`for (i = coeffs.length - 1; i >= 0; i--) result = gfMul(result, x) ^ coeffs[i]`. -/
def evaluatePolynomial (coeffs : List Nat) (x : Nat) : Nat :=
  coeffs.foldr (fun c result => gfMul result x ^^^ c) 0

/-- One iteration of the outer loop of `lagrangeInterpolate`: computes
`num`, `den` over `j ≠ i` and the term `gfMul(gfMul(num, gfDiv(1, den)), points[i][1])`. -/
def interpTerm (points : List (Nat × Nat)) (i : Nat) : Except String Nat :=
  let xi := (points.getD i (0, 0)).1
  let idxs := (List.range points.length).filter (fun j => j ≠ i)
  let num := idxs.foldl (fun acc j => gfMul acc (points.getD j (0, 0)).1) 1
  let den := idxs.foldl (fun acc j => gfMul acc (xi ^^^ (points.getD j (0, 0)).1)) 1
  (gfDivE 1 den).map (fun q => gfMul (gfMul num q) (points.getD i (0, 0)).2)

/-- Source `lagrangeInterpolate(points)`: interpolation at `x = 0`, xor-accumulating the
terms; `gfDiv` throwing aborts the loop (first zero denominator wins). -/
def lagrangeInterpolate (points : List (Nat × Nat)) : Except String Nat :=
  (List.range points.length).foldlM
    (fun result i => (interpTerm points i).map (fun t => result ^^^ t))
    0

/-- Coefficients of the random polynomial for byte `byteIdx`:
`coeffs[0] = secret[byteIdx]`, `coeffs[k] = rng(byteIdx, k)` for `1 ≤ k < threshold`
(the `crypto.getRandomValues` draw is passed in as `rng`). -/
def coeffsAt (secret : List Nat) (threshold : Nat) (rng : Nat → Nat → Nat)
    (byteIdx : Nat) : List Nat :=
  secret.getD byteIdx 0 :: (List.range (threshold - 1)).map (fun k => rng byteIdx (k + 1))

/-- The share with index `i` (share id `i + 1`): every data byte is the
polynomial for that position evaluated at `x = i + 1`. -/
def shareAt (secret : List Nat) (numShares threshold : Nat) (rng : Nat → Nat → Nat)
    (i : Nat) : Share :=
  { id := i + 1
    threshold := threshold
    totalShares := numShares
    data := (List.range secret.length).map (fun byteIdx =>
      evaluatePolynomial (coeffsAt secret threshold rng byteIdx) (i + 1)) }

/-- Source `split(secret, numShares, threshold)` with the random coefficient bytes
supplied by `rng`. -/
def split (secret : List Nat) (numShares threshold : Nat) (rng : Nat → Nat → Nat) :
    Except String (List Share) :=
  if threshold > numShares then .error "Threshold cannot exceed number of shares"
  else if threshold < 2 then .error "Threshold must be at least 2"
  else if numShares > 254 then .error "Maximum 254 shares supported"
  else .ok ((List.range numShares).map (shareAt secret numShares threshold rng))

/-- Source `combine(shares)`: rejects fewer than 2 shares, then interpolates every byte
position `0 ≤ byteIdx < shares[0].data.length` from the `(id, byte)` points. -/
def combine (shares : List Share) : Except String (List Nat) :=
  if shares.length < 2 then .error "Need at least 2 shares"
  else
    (List.range (shares.headD default).data.length).mapM (fun byteIdx =>
      lagrangeInterpolate (shares.map (fun s => (s.id, s.data.getD byteIdx 0))))

/-! ### Fold lemmas connecting the loops to `GF256` algebra -/

theorem foldl_gfMul_val (l : List Nat) (g : Nat → GF256) (c : GF256) :
    l.foldl (fun acc j => gfMul acc (g j).1) c.1 = (c * (l.map g).prod).1 := by
  induction l generalizing c with
  | nil => simp [mul_one]
  | cons j t ih =>
    simp only [List.foldl_cons, List.map_cons, List.prod_cons]
    rw [show gfMul c.1 (g j).1 = (c * g j).1 from rfl, ih (c * g j), mul_assoc]

theorem foldlM_xor_val (l : List Nat) (termE : Nat → Except String Nat) (F : Nat → GF256)
    (hf : ∀ i ∈ l, termE i = .ok (F i).1) (c : GF256) :
    l.foldlM (fun result i => (termE i).map (fun t => result ^^^ t)) c.1
      = .ok ((c + (l.map F).sum).1) := by
  induction l generalizing c with
  | nil =>
    show Except.ok c.1 = _
    rw [List.map_nil, List.sum_nil, add_zero]
  | cons i t ih =>
    rw [List.foldlM_cons, hf i (List.mem_cons_self i t)]
    show (t.foldlM (fun result i => (termE i).map (fun t => result ^^^ t))
      ((c + F i).1)) = _
    rw [ih (fun j hj => hf j (List.mem_cons_of_mem i hj)) (c + F i)]
    simp only [List.map_cons, List.sum_cons]
    rw [add_assoc]

theorem filter_range_toFinset (n i : Nat) :
    ((List.range n).filter (fun j => j ≠ i)).toFinset = (Finset.range n).erase i := by
  ext k
  simp only [List.mem_toFinset, List.mem_filter, List.mem_range, Finset.mem_erase,
    Finset.mem_range, decide_eq_true_eq]
  tauto

theorem GF256.val_inv (a : GF256) (h : a.1 ≠ 0) : (a⁻¹).1 = ginvVal a.1 := by
  show (if hc : a.1 = 0 then (⟨0, by omega⟩ : GF256) else ⟨ginvVal a.1, ginvVal_lt a.1⟩).1
    = ginvVal a.1
  rw [dif_neg h]

theorem GF256.neg_eq (a : GF256) : -a = a := rfl

theorem GF256.val_ne_zero {a : GF256} (h : a ≠ 0) : a.1 ≠ 0 := by
  intro hv
  exact h (GF256.ext hv)

/-- The loop body of `lagrangeInterpolate` in `GF256` terms: when the other
points' ids differ from point `i`'s id, the term is
`(∏ xⱼ) * (∏ (xᵢ - xⱼ))⁻¹ * yᵢ`. -/
theorem interpTerm_ok (pts : List (Nat × Nat)) (v w : Nat → GF256)
    (hv : ∀ j, (pts.getD j (0, 0)).1 = (v j).1)
    (hw : ∀ j, (pts.getD j (0, 0)).2 = (w j).1)
    (i : Nat)
    (hdist : ∀ j < pts.length, j ≠ i → v j ≠ v i) :
    interpTerm pts i = .ok
      (((((Finset.range pts.length).erase i).prod v) *
        ((((Finset.range pts.length).erase i).prod (fun j => v i - v j))⁻¹) * w i).1) := by
  unfold interpTerm
  set l := (List.range pts.length).filter (fun j => j ≠ i) with hl
  have hlnd : l.Nodup := (List.nodup_range _).filter _
  have hleq : l.toFinset = (Finset.range pts.length).erase i := filter_range_toFinset _ i
  have hnum : l.foldl (fun acc j => gfMul acc (pts.getD j (0, 0)).1) 1
      = (((Finset.range pts.length).erase i).prod v).1 := by
    have hfn : (fun acc j => gfMul acc (pts.getD j (0, 0)).1)
        = (fun acc j => gfMul acc (v j).1) := by
      funext acc j
      rw [hv j]
    rw [hfn, show (1 : Nat) = (1 : GF256).1 from rfl, foldl_gfMul_val l v 1, one_mul,
      ← List.prod_toFinset v hlnd, hleq]
  have hden : l.foldl (fun acc j => gfMul acc ((pts.getD i (0, 0)).1 ^^^ (pts.getD j (0, 0)).1)) 1
      = (((Finset.range pts.length).erase i).prod (fun j => v i - v j)).1 := by
    have hfn : (fun acc j => gfMul acc ((pts.getD i (0, 0)).1 ^^^ (pts.getD j (0, 0)).1))
        = (fun acc j => gfMul acc ((v i - v j).1)) := by
      funext acc j
      rw [hv j, hv i, GF256.val_sub]
    rw [hfn, show (1 : Nat) = (1 : GF256).1 from rfl, foldl_gfMul_val l (fun j => v i - v j) 1,
      one_mul, ← List.prod_toFinset (fun j => v i - v j) hlnd, hleq]
  set D := ((Finset.range pts.length).erase i).prod (fun j => v i - v j) with hD
  have hDne : D ≠ 0 := by
    rw [hD]
    apply Finset.prod_ne_zero_iff.mpr
    intro j hj
    rcases Finset.mem_erase.mp hj with ⟨hji, hjr⟩
    exact sub_ne_zero_of_ne (Ne.symm (hdist j (Finset.mem_range.mp hjr) hji))
  simp only [hnum, hden]
  rw [gfDivE_one D.1 (Nat.pos_of_ne_zero (GF256.val_ne_zero hDne)) D.2]
  show Except.ok (gfMul (gfMul _ (ginvVal D.1)) _) = _
  rw [← GF256.val_inv D (GF256.val_ne_zero hDne), hw i]
  rfl

/-- Lemma: `lagrangeInterpolate` succeeds on pairwise-distinct ids and computes the
`GF256` Lagrange value at 0. -/
theorem lagrangeInterpolate_ok (pts : List (Nat × Nat)) (v w : Nat → GF256)
    (hv : ∀ j, (pts.getD j (0, 0)).1 = (v j).1)
    (hw : ∀ j, (pts.getD j (0, 0)).2 = (w j).1)
    (hinj : ∀ j k, j < pts.length → k < pts.length → v j = v k → j = k) :
    lagrangeInterpolate pts = .ok
      ((∑ i ∈ Finset.range pts.length,
        (((Finset.range pts.length).erase i).prod v) *
          ((((Finset.range pts.length).erase i).prod (fun j => v i - v j))⁻¹) * w i).1) := by
  unfold lagrangeInterpolate
  have hf : ∀ i ∈ List.range pts.length,
      interpTerm pts i = .ok
        (((((Finset.range pts.length).erase i).prod v) *
          ((((Finset.range pts.length).erase i).prod (fun j => v i - v j))⁻¹) * w i).1) := by
    intro i hi
    exact interpTerm_ok pts v w hv hw i
      (fun j hj hji hvji => hji (hinj j i hj (List.mem_range.mp hi) hvji))
  rw [show (0 : Nat) = (0 : GF256).1 from rfl,
    foldlM_xor_val (List.range pts.length) (interpTerm pts) _ hf 0, zero_add]
  congr 1

/-- Evaluating the Lagrange reconstruction sum at 0 recovers `f.eval 0` for any
polynomial `f` of degree `< n` through `n` distinct nodes. -/
theorem sum_interp_eval_zero (n : Nat) (v : Nat → GF256) (f : Polynomial GF256)
    (hinj : Set.InjOn v (Finset.range n : Finset Nat))
    (hdeg : f.degree < (Finset.range n).card) :
    ∑ i ∈ Finset.range n, (((Finset.range n).erase i).prod v *
      (((Finset.range n).erase i).prod (fun j => v i - v j))⁻¹ * f.eval (v i))
      = f.eval 0 := by
  conv_rhs => rw [Lagrange.eq_interpolate hinj hdeg]
  rw [Lagrange.interpolate_apply, Polynomial.eval_finset_sum]
  apply Finset.sum_congr rfl
  intro i hi
  rw [Polynomial.eval_mul, Polynomial.eval_C, Lagrange.basis, Polynomial.eval_prod]
  have hterm : ∀ j ∈ (Finset.range n).erase i,
      Polynomial.eval 0 (Lagrange.basisDivisor (v i) (v j)) = (v i - v j)⁻¹ * v j := by
    intro j hj
    rw [Lagrange.basisDivisor, Polynomial.eval_mul, Polynomial.eval_C, Polynomial.eval_sub,
      Polynomial.eval_X, Polynomial.eval_C, zero_sub, GF256.neg_eq]
  rw [Finset.prod_congr rfl hterm, Finset.prod_mul_distrib, ← Finset.prod_inv_distrib]
  ring

/-! ### Horner polynomials over `GF256` -/

/-- A byte as an element of `GF256` (values are reduced mod 256;
for byte inputs this is the identity). -/
def GF256.mk (c : Nat) : GF256 :=
  ⟨c % 256, Nat.mod_lt c (by omega)⟩

theorem GF256.val_mk (c : Nat) : (GF256.mk c).1 = c % 256 := rfl

/-- A byte list viewed in `GF256`. -/
def listToGF (l : List Nat) : List GF256 :=
  l.map GF256.mk

/-- The polynomial with coefficient list `l` (constant term first). -/
noncomputable def polyOfCoeffs (l : List GF256) : Polynomial GF256 :=
  l.foldr (fun c p => Polynomial.C c + Polynomial.X * p) 0

theorem polyOfCoeffs_degree (l : List GF256) :
    (polyOfCoeffs l).degree < (l.length : WithBot Nat) := by
  induction l with
  | nil =>
    show (0 : Polynomial GF256).degree < ((0 : Nat) : WithBot Nat)
    rw [Polynomial.degree_zero]
    exact WithBot.bot_lt_coe 0
  | cons c t ih =>
    show (Polynomial.C c + Polynomial.X * polyOfCoeffs t).degree < ((t.length + 1 : Nat) : WithBot Nat)
    apply lt_of_le_of_lt (Polynomial.degree_add_le _ _)
    rw [max_lt_iff]
    constructor
    · apply lt_of_le_of_lt Polynomial.degree_C_le
      exact_mod_cast WithBot.coe_lt_coe.mpr (by omega)
    · rw [Polynomial.degree_mul, Polynomial.degree_X]
      calc 1 + (polyOfCoeffs t).degree < 1 + (t.length : WithBot Nat) := by
            apply WithBot.add_lt_add_left (by simp) ih
        _ = ((t.length + 1 : Nat) : WithBot Nat) := by
            push_cast
            ring

theorem polyOfCoeffs_eval_zero (c : GF256) (t : List GF256) :
    (polyOfCoeffs (c :: t)).eval 0 = c := by
  show (Polynomial.C c + Polynomial.X * polyOfCoeffs t).eval 0 = c
  rw [Polynomial.eval_add, Polynomial.eval_C, Polynomial.eval_mul, Polynomial.eval_X,
    zero_mul, add_zero]

/-- Lemma: `evaluatePolynomial` computes `polyOfCoeffs` evaluation, for byte inputs. -/
theorem evaluatePolynomial_eval (l : List Nat) (hl : ∀ c ∈ l, c < 256) (x : GF256) :
    evaluatePolynomial l x.1 = ((polyOfCoeffs (listToGF l)).eval x).1 := by
  induction l with
  | nil =>
    show (0 : Nat) = ((0 : Polynomial GF256).eval x).1
    rw [Polynomial.eval_zero]
    rfl
  | cons c t ih =>
    have h1 : evaluatePolynomial (c :: t) x.1
        = gfMul (evaluatePolynomial t x.1) x.1 ^^^ c := rfl
    have h2 : polyOfCoeffs (listToGF (c :: t))
        = Polynomial.C (GF256.mk c) + Polynomial.X * polyOfCoeffs (listToGF t) := rfl
    rw [h1, h2, Polynomial.eval_add, Polynomial.eval_C, Polynomial.eval_mul, Polynomial.eval_X,
      ih (fun d hd => hl d (List.mem_cons_of_mem c hd))]
    rw [GF256.val_add, GF256.val_mul]
    show gfMul ((polyOfCoeffs (listToGF t)).eval x).1 x.1 ^^^ c
      = c % 256 ^^^ gfMul x.1 ((polyOfCoeffs (listToGF t)).eval x).1
    rw [Nat.mod_eq_of_lt (hl c (List.mem_cons_self c t)), Nat.xor_comm, gfMul_comm]

/-! ### Helpers for `split`/`combine` -/

theorem getD_map_range {α : Type} (n k : Nat) (f : Nat → α) (d : α) (hk : k < n) :
    ((List.range n).map f).getD k d = f k := by
  rw [List.getD_eq_getElem ((List.range n).map f) d (by simpa using hk)]
  simp [hk]

theorem mapM_ok {α β : Type} (l : List α) (f : α → Except String β) (g : α → β)
    (h : ∀ b ∈ l, f b = .ok (g b)) : l.mapM f = .ok (l.map g) := by
  induction l with
  | nil => rfl
  | cons a t ih =>
    rw [List.mapM_cons, h a (List.mem_cons_self a t),
      ih (fun b hb => h b (List.mem_cons_of_mem a hb))]
    rfl

theorem map_getD_range (l : List Nat) :
    (List.range l.length).map (fun b => l.getD b 0) = l := by
  apply List.ext_getElem
  · simp
  · intro i h1 h2
    simp only [List.getElem_map, List.getElem_range]
    exact List.getD_eq_getElem l 0 h2

theorem headD_map {α β : Type} (f : α → β) (l : List α) (d : β) (d2 : α) (h : l ≠ []) :
    (l.map f).headD d = f (l.headD d2) := by
  cases l with
  | nil => exact absurd rfl h
  | cons a t => rfl

theorem getD_map_pair (ss : List Share) (j : Nat) (b : Nat) (hj : j < ss.length) :
    ((ss.map (fun s => (s.id, s.data.getD b 0))).getD j (0, 0))
      = ((ss.getD j default).id, (ss.getD j default).data.getD b 0) := by
  rw [List.getD_eq_getElem _ _ (by simpa using hj), List.getElem_map,
    List.getD_eq_getElem _ _ hj]

theorem getD_map_default (ss : List Share) (j : Nat) (b : Nat) (hj : ¬ j < ss.length) :
    ((ss.map (fun s => (s.id, s.data.getD b 0))).getD j (0, 0)) = (0, 0) := by
  rw [List.getD_eq_default]
  simpa using hj

/-- Lemma: `split` succeeds exactly on in-range parameters, returning the shares built
from the per-byte polynomials. -/
theorem split_ok (secret : List Nat) (N M : Nat) (rng : Nat → Nat → Nat)
    (h2 : 2 ≤ M) (hMN : M ≤ N) (hN : N ≤ 254) :
    split secret N M rng = .ok ((List.range N).map (shareAt secret N M rng)) := by
  unfold split
  rw [if_neg (by omega), if_neg (by omega), if_neg (by omega)]

theorem evaluatePolynomial_lt (l : List Nat) (hl : ∀ c ∈ l, c < 256) (x : Nat) :
    evaluatePolynomial l x < 256 := by
  cases l with
  | nil => exact Nat.zero_lt_succ _
  | cons c t =>
    show gfMul (evaluatePolynomial t x) x ^^^ c < 256
    exact xor_lt_256 (gfMul_lt _ _) (hl c (List.mem_cons_self c t))

theorem coeffsAt_bytes (secret : List Nat) (M : Nat) (rng : Nat → Nat → Nat) (b : Nat)
    (hsec : ∀ c ∈ secret, c < 256) (hrng : ∀ i k, rng i k < 256) :
    ∀ c ∈ coeffsAt secret M rng b, c < 256 := by
  intro c hc
  rcases List.mem_cons.mp hc with h | h
  · subst h
    by_cases hb : b < secret.length
    · rw [List.getD_eq_getElem _ _ hb]
      exact hsec _ (List.getElem_mem hb)
    · rw [List.getD_eq_default _ _ (by omega)]
      omega
  · rcases List.mem_map.mp h with ⟨k, hk, hkc⟩
    rw [← hkc]
    exact hrng b (k + 1)

theorem coeffsAt_length (secret : List Nat) (M : Nat) (rng : Nat → Nat → Nat) (b : Nat) :
    (coeffsAt secret M rng b).length = M - 1 + 1 := by
  simp [coeffsAt]

theorem getD_map {α β : Type} (l : List α) (f : α → β) (j : Nat) (d : β) (d2 : α)
    (hj : j < l.length) : (l.map f).getD j d = f (l.getD j d2) := by
  rw [List.getD_eq_getElem _ _ (by simpa using hj), List.getElem_map,
    List.getD_eq_getElem _ _ hj]

/-- Reconstruction of one byte: interpolating the selected shares' points for
byte position `b` returns the secret byte. -/
theorem byte_reconstruct (secret : List Nat) (N M : Nat) (rng : Nat → Nat → Nat)
    (sel : List Nat) (b : Nat)
    (hsec : ∀ c ∈ secret, c < 256) (hrng : ∀ i k, rng i k < 256)
    (h2 : 2 ≤ M) (hMN : M ≤ N) (hN : N ≤ 254)
    (hnd : sel.Nodup) (hlen : sel.length = M) (hmem : ∀ k ∈ sel, k < N)
    (hb : b < secret.length) :
    lagrangeInterpolate ((sel.map (shareAt secret N M rng)).map
      (fun s => (s.id, s.data.getD b 0))) = .ok (secret.getD b 0) := by
  set ss := sel.map (shareAt secret N M rng) with hss
  set pts := ss.map (fun s => (s.id, s.data.getD b 0)) with hpts
  have hlss : ss.length = M := by rw [hss, List.length_map, hlen]
  have hlpts : pts.length = M := by rw [hpts, List.length_map, hlss]
  have hselmem : ∀ j, j < M → sel.getD j 0 < N := by
    intro j hj
    apply hmem
    rw [List.getD_eq_getElem _ _ (by omega)]
    exact List.getElem_mem _
  -- the X and Y coordinates of point j
  have hget : ∀ j, j < M →
      pts.getD j (0, 0) = (sel.getD j 0 + 1,
        evaluatePolynomial (coeffsAt secret M rng b) (sel.getD j 0 + 1)) := by
    intro j hj
    rw [hpts, getD_map_pair ss j b (by omega), hss,
      getD_map sel (shareAt secret N M rng) j default 0 (by omega)]
    show (sel.getD j 0 + 1,
      ((List.range secret.length).map (fun byteIdx =>
        evaluatePolynomial (coeffsAt secret M rng byteIdx) (sel.getD j 0 + 1))).getD b 0) = _
    rw [getD_map_range _ _ _ _ hb]
  have hcb : ∀ c ∈ coeffsAt secret M rng b, c < 256 := coeffsAt_bytes secret M rng b hsec hrng
  have hXlt : ∀ j, (pts.getD j (0, 0)).1 < 256 := by
    intro j
    by_cases hj : j < M
    · rw [hget j hj]
      have := hselmem j hj
      omega
    · rw [hpts, getD_map_default ss j b (by omega)]
      omega
  have hYlt : ∀ j, (pts.getD j (0, 0)).2 < 256 := by
    intro j
    by_cases hj : j < M
    · rw [hget j hj]
      exact evaluatePolynomial_lt _ hcb _
    · rw [hpts, getD_map_default ss j b (by omega)]
      omega
  set v : Nat → GF256 := fun j => GF256.mk (pts.getD j (0, 0)).1 with hvdef
  set w : Nat → GF256 := fun j => GF256.mk (pts.getD j (0, 0)).2 with hwdef
  have hv : ∀ j, (pts.getD j (0, 0)).1 = (v j).1 := by
    intro j
    rw [hvdef]
    show _ = (pts.getD j (0, 0)).1 % 256
    rw [Nat.mod_eq_of_lt (hXlt j)]
  have hw : ∀ j, (pts.getD j (0, 0)).2 = (w j).1 := by
    intro j
    rw [hwdef]
    show _ = (pts.getD j (0, 0)).2 % 256
    rw [Nat.mod_eq_of_lt (hYlt j)]
  have hvx : ∀ j, j < M → (v j).1 = sel.getD j 0 + 1 := by
    intro j hj
    rw [← hv j, hget j hj]
  have hinj : ∀ j k, j < pts.length → k < pts.length → v j = v k → j = k := by
    intro j k hj hk hvjk
    rw [hlpts] at hj hk
    have hj2 := hvx j hj
    have hk2 := hvx k hk
    have : sel.getD j 0 = sel.getD k 0 := by
      have := congrArg Subtype.val hvjk
      omega
    have hj3 : j < sel.length := by omega
    have hk3 : k < sel.length := by omega
    rw [List.getD_eq_getElem sel 0 hj3, List.getD_eq_getElem sel 0 hk3] at this
    exact (List.Nodup.getElem_inj_iff hnd).mp this
  rw [lagrangeInterpolate_ok pts v w hv hw hinj]
  set f := polyOfCoeffs (listToGF (coeffsAt secret M rng b)) with hf
  have hwf : ∀ i ∈ Finset.range pts.length, v i = v i ∧ w i = f.eval (v i) := by
    intro i hi
    refine ⟨rfl, ?_⟩
    rw [Finset.mem_range, hlpts] at hi
    apply GF256.ext
    rw [← evaluatePolynomial_eval _ hcb (v i)]
    have h1 : (w i).1 = (pts.getD i (0, 0)).2 := (hw i).symm
    rw [h1, hget i hi]
    show evaluatePolynomial _ (sel.getD i 0 + 1) = evaluatePolynomial _ ((v i).1)
    rw [hvx i hi]
  have hsum : ∑ i ∈ Finset.range pts.length,
      (((Finset.range pts.length).erase i).prod v *
        (((Finset.range pts.length).erase i).prod (fun j => v i - v j))⁻¹ * w i)
      = f.eval 0 := by
    rw [Finset.sum_congr rfl (fun i hi => by rw [(hwf i hi).2])]
    apply sum_interp_eval_zero
    · intro j hj k hk hvjk
      rw [Finset.mem_coe, Finset.mem_range] at hj hk
      exact hinj j k hj hk hvjk
    · rw [hf, Finset.card_range, hlpts]
      have hL : (listToGF (coeffsAt secret M rng b)).length = M := by
        rw [listToGF, List.length_map, coeffsAt_length]
        omega
      calc (polyOfCoeffs (listToGF (coeffsAt secret M rng b))).degree
          < ((listToGF (coeffsAt secret M rng b)).length : WithBot Nat) :=
            polyOfCoeffs_degree _
        _ = (M : WithBot Nat) := by rw [hL]
  rw [hsum]
  have hev : f.eval 0 = GF256.mk (secret.getD b 0) := by
    rw [hf]
    show (polyOfCoeffs (GF256.mk (secret.getD b 0) :: listToGF
      ((List.range (M - 1)).map (fun k => rng b (k + 1))))).eval 0 = _
    exact polyOfCoeffs_eval_zero _ _
  rw [hev]
  show Except.ok (secret.getD b 0 % 256) = _
  rw [Nat.mod_eq_of_lt]
  rw [List.getD_eq_getElem _ _ hb]
  exact hsec _ (List.getElem_mem hb)

/-- C1:  For every byte sequence S and integers N, M with 2 ≤ M ≤ N ≤ 254
(and any cryptographically drawn coefficient bytes `rng`), `split(S, N, M)`
returns exactly N shares whose ids are 1..N in order (hence distinct), and
`combine` applied to any subset of exactly M of those shares — chosen by any
duplicate-free index list `sel` in any order — returns S byte-for-byte. -/
theorem c1_split_combine_roundtrip (secret : List Nat) (N M : Nat)
    (rng : Nat → Nat → Nat) (shares : List Share) (sel : List Nat)
    (hsec : ∀ c ∈ secret, c < 256) (hrng : ∀ i k, rng i k < 256)
    (h2 : 2 ≤ M) (hMN : M ≤ N) (hN : N ≤ 254)
    (hsplit : split secret N M rng = .ok shares)
    (hnd : sel.Nodup) (hlen : sel.length = M) (hmem : ∀ k ∈ sel, k < N) :
    shares.map (fun s => s.id) = (List.range N).map (fun i => i + 1) ∧
    combine (sel.map (fun k => shares.getD k default)) = .ok secret := by
  rw [split_ok secret N M rng h2 hMN hN] at hsplit
  have hshares : shares = (List.range N).map (shareAt secret N M rng) :=
    (Except.ok.injEq _ _).mp hsplit.symm
  subst hshares
  constructor
  · rw [List.map_map]
    rfl
  · have hsel : (sel.map (fun k =>
        ((List.range N).map (shareAt secret N M rng)).getD k default))
        = sel.map (shareAt secret N M rng) := by
      apply List.map_congr_left
      intro k hk
      exact getD_map_range N k _ default (hmem k hk)
    rw [hsel]
    set ss := sel.map (shareAt secret N M rng) with hss
    have hlss : ss.length = M := by rw [hss, List.length_map, hlen]
    have hnonempty : sel ≠ [] := by
      intro h
      rw [h] at hlen
      simp at hlen
      omega
    unfold combine
    rw [if_neg (by omega)]
    have hhead : (ss.headD default).data.length = secret.length := by
      rw [hss, headD_map (shareAt secret N M rng) sel default 0 hnonempty]
      show ((List.range secret.length).map _).length = secret.length
      rw [List.length_map, List.length_range]
    rw [hhead]
    rw [mapM_ok _ _ (fun b => secret.getD b 0) (fun b hb =>
      byte_reconstruct secret N M rng sel b hsec hrng h2 hMN hN hnd hlen hmem
        (List.mem_range.mp hb))]
    rw [map_getD_range]

theorem c1_witness :
    ((List.range 2).map (shareAt [5] 2 2 (fun _ _ => 7))).map (fun s => s.id)
        = (List.range 2).map (fun i => i + 1) ∧
    combine ([1, 0].map (fun k =>
        ((List.range 2).map (shareAt [5] 2 2 (fun _ _ => 7))).getD k default)) = .ok [5] :=
  c1_split_combine_roundtrip [5] 2 2 (fun _ _ => 7) _ [1, 0]
    (by decide) (fun _ _ => (by decide : (7 : Nat) < 256)) (by decide) (by decide) (by decide)
    (split_ok [5] 2 2 (fun _ _ => 7) (by decide) (by decide) (by decide))
    (by decide) (by decide) (by decide)

/-! ### Error characterization for `lagrangeInterpolate` and `combine` -/

theorem foldlM_error_iff (l : List Nat) (termE : Nat → Except String Nat) (c : Nat) :
    (∃ e, l.foldlM (fun result i => (termE i).map (fun t => result ^^^ t)) c = .error e)
      ↔ ∃ i ∈ l, ∃ e, termE i = .error e := by
  induction l generalizing c with
  | nil =>
    constructor
    · rintro ⟨e, he⟩
      exact absurd he (by simp [pure, Except.pure])
    · rintro ⟨i, hi, _⟩
      exact absurd hi (List.not_mem_nil i)
  | cons i t ih =>
    rw [List.foldlM_cons]
    cases hti : termE i with
    | error e =>
      constructor
      · intro _
        exact ⟨i, List.mem_cons_self i t, e, hti⟩
      · intro _
        exact ⟨e, rfl⟩
    | ok t0 =>
      have hred : (do
          let init ← Except.map (fun t2 => c ^^^ t2) (Except.ok t0 : Except String Nat)
          t.foldlM (fun result i => (termE i).map (fun t2 => result ^^^ t2)) init)
          = t.foldlM (fun result i => (termE i).map (fun t2 => result ^^^ t2)) (c ^^^ t0) := rfl
      rw [hred, ih (c ^^^ t0)]
      constructor
      · rintro ⟨j, hj, he⟩
        exact ⟨j, List.mem_cons_of_mem i hj, he⟩
      · rintro ⟨j, hj, e, he⟩
        rcases List.mem_cons.mp hj with rfl | hj2
        · rw [hti] at he
          cases he
        · exact ⟨j, hj2, e, he⟩

theorem foldl_gfMul_eq_zero (l : List Nat) (g : Nat → Nat) (hg : ∀ j ∈ l, g j < 256) :
    ∀ c, c < 256 → (l.foldl (fun acc j => gfMul acc (g j)) c = 0 ↔
      c = 0 ∨ ∃ j ∈ l, g j = 0) := by
  induction l with
  | nil => simp
  | cons j t ih =>
    intro c hc
    rw [List.foldl_cons,
      ih (fun k hk => hg k (List.mem_cons_of_mem j hk)) (gfMul c (g j)) (gfMul_lt _ _)]
    have hgj := hg j (List.mem_cons_self j t)
    constructor
    · rintro (h0 | hex)
      · by_cases hc0 : c = 0
        · exact Or.inl hc0
        · by_cases hgj0 : g j = 0
          · exact Or.inr ⟨j, List.mem_cons_self j t, hgj0⟩
          · exact absurd h0 (gfMul_ne_zero c (g j) (by omega) (by omega) hc hgj)
      · rcases hex with ⟨k, hk, hk0⟩
        exact Or.inr ⟨k, List.mem_cons_of_mem j hk, hk0⟩
    · rintro (h0 | ⟨k, hk, hk0⟩)
      · subst h0
        exact Or.inl (gfMul_zero_left _)
      · rcases List.mem_cons.mp hk with rfl | hk2
        · exact Or.inl (by rw [hk0, gfMul_zero_right])
        · exact Or.inr ⟨k, hk2, hk0⟩

/-- Lemma: `interpTerm` throws exactly when point `i` shares its x-coordinate with
another point. -/
theorem interpTerm_error_iff (pts : List (Nat × Nat)) (i : Nat)
    (hx : ∀ j, (pts.getD j (0, 0)).1 < 256) (hi : i < pts.length) :
    (∃ e, interpTerm pts i = .error e) ↔
      ∃ j < pts.length, j ≠ i ∧ (pts.getD j (0, 0)).1 = (pts.getD i (0, 0)).1 := by
  unfold interpTerm
  simp only
  set l := (List.range pts.length).filter (fun j => j ≠ i) with hl
  set den := l.foldl
    (fun acc j => gfMul acc ((pts.getD i (0, 0)).1 ^^^ (pts.getD j (0, 0)).1)) 1 with hden
  have hmem : ∀ j, (j ∈ l ↔ j < pts.length ∧ j ≠ i) := by
    intro j
    rw [hl, List.mem_filter, List.mem_range]
    simp
  have hdz : den = 0 ↔ ∃ j < pts.length, j ≠ i ∧
      (pts.getD j (0, 0)).1 = (pts.getD i (0, 0)).1 := by
    rw [hden, foldl_gfMul_eq_zero l _
      (fun j _ => xor_lt_256 (hx i) (hx j)) 1 (by omega)]
    constructor
    · rintro (h | ⟨j, hj, hj0⟩)
      · omega
      · rcases (hmem j).mp hj with ⟨hjl, hji⟩
        exact ⟨j, hjl, hji, (Nat.xor_eq_zero.mp hj0).symm⟩
    · rintro ⟨j, hjl, hji, hjx⟩
      exact Or.inr ⟨j, (hmem j).mpr ⟨hjl, hji⟩, Nat.xor_eq_zero.mpr hjx.symm⟩
  constructor
  · rintro ⟨e, he⟩
    by_cases hd0 : den = 0
    · exact hdz.mp hd0
    · rw [gfDivE, if_neg hd0, if_neg (by omega)] at he
      cases he
  · intro hdup
    have hd0 : den = 0 := hdz.mpr hdup
    rw [hd0]
    exact ⟨"Division by zero", rfl⟩

/-- Lemma: `lagrangeInterpolate` throws (necessarily `'Division by zero'`) exactly when
two points share an x-coordinate. -/
theorem lagrangeInterpolate_error_iff (pts : List (Nat × Nat))
    (hx : ∀ j, (pts.getD j (0, 0)).1 < 256) :
    (∃ e, lagrangeInterpolate pts = .error e) ↔
      ∃ i < pts.length, ∃ j < pts.length, i ≠ j ∧
        (pts.getD i (0, 0)).1 = (pts.getD j (0, 0)).1 := by
  unfold lagrangeInterpolate
  rw [foldlM_error_iff]
  constructor
  · rintro ⟨i, hi, he⟩
    have hi2 := List.mem_range.mp hi
    rcases (interpTerm_error_iff pts i hx hi2).mp he with ⟨j, hj, hji, hjx⟩
    exact ⟨j, hj, i, hi2, hji, hjx⟩
  · rintro ⟨i, hi, j, hj, hij, hx2⟩
    refine ⟨j, List.mem_range.mpr hj, ?_⟩
    exact (interpTerm_error_iff pts j hx hj).mpr ⟨i, hi, hij, hx2⟩

theorem mapM_ok_exists {α β : Type} (l : List α) (f : α → Except String β)
    (h : ∀ b ∈ l, ∃ y, f b = .ok y) : ∃ out, l.mapM f = .ok out ∧ out.length = l.length := by
  induction l with
  | nil => exact ⟨[], rfl, rfl⟩
  | cons a t ih =>
    rcases h a (List.mem_cons_self a t) with ⟨y, hy⟩
    rcases ih (fun b hb => h b (List.mem_cons_of_mem a hb)) with ⟨out, hout, hlen⟩
    refine ⟨y :: out, ?_, by simpa using hlen⟩
    rw [List.mapM_cons, hy, hout]
    rfl

theorem getD_mem_of_lt {α : Type} (l : List α) (d : α) (j : Nat) (hj : j < l.length) :
    l.getD j d ∈ l := by
  rw [List.getD_eq_getElem l d hj]
  exact List.getElem_mem hj

/-- Interpolation of the byte-`b` points of shares with pairwise-distinct
byte-range ids succeeds. -/
theorem lagrange_shares_ok (shares : List Share) (b : Nat)
    (hnd : (shares.map (fun s => s.id)).Nodup)
    (hid : ∀ s ∈ shares, s.id < 256)
    (hdata : ∀ s ∈ shares, ∀ c ∈ s.data, c < 256) :
    ∃ y, lagrangeInterpolate (shares.map (fun s => (s.id, s.data.getD b 0))) = .ok y := by
  set pts := shares.map (fun s => (s.id, s.data.getD b 0)) with hpts
  have hlpts : pts.length = shares.length := by rw [hpts, List.length_map]
  have hxlt : ∀ j, (pts.getD j (0, 0)).1 < 256 := by
    intro j
    by_cases hj : j < shares.length
    · rw [hpts, getD_map_pair shares j b hj]
      exact hid _ (getD_mem_of_lt shares default j hj)
    · rw [hpts, getD_map_default shares j b hj]
      omega
  have hylt : ∀ j, (pts.getD j (0, 0)).2 < 256 := by
    intro j
    by_cases hj : j < shares.length
    · rw [hpts, getD_map_pair shares j b hj]
      by_cases hb : b < (shares.getD j default).data.length
      · exact hdata _ (getD_mem_of_lt shares default j hj) _
          (getD_mem_of_lt _ 0 b hb)
      · show (shares.getD j default).data.getD b 0 < 256
        rw [List.getD_eq_default _ _ (by omega)]
        omega
    · rw [hpts, getD_map_default shares j b hj]
      omega
  set v : Nat → GF256 := fun j => GF256.mk (pts.getD j (0, 0)).1 with hvdef
  set w : Nat → GF256 := fun j => GF256.mk (pts.getD j (0, 0)).2 with hwdef
  have hv : ∀ j, (pts.getD j (0, 0)).1 = (v j).1 := by
    intro j
    rw [hvdef]
    show _ = (pts.getD j (0, 0)).1 % 256
    rw [Nat.mod_eq_of_lt (hxlt j)]
  have hw : ∀ j, (pts.getD j (0, 0)).2 = (w j).1 := by
    intro j
    rw [hwdef]
    show _ = (pts.getD j (0, 0)).2 % 256
    rw [Nat.mod_eq_of_lt (hylt j)]
  have hinj : ∀ j k, j < pts.length → k < pts.length → v j = v k → j = k := by
    intro j k hj hk hvjk
    rw [hlpts] at hj hk
    have hids : (shares.getD j default).id = (shares.getD k default).id := by
      have h1 := hv j
      have h2 := hv k
      rw [hpts, getD_map_pair shares j b hj] at h1
      rw [hpts, getD_map_pair shares k b hk] at h2
      rw [hvjk] at h1
      rw [← h1] at h2
      exact h2.symm
    have hj2 : j < (shares.map (fun s => s.id)).length := by simpa using hj
    have hk2 : k < (shares.map (fun s => s.id)).length := by simpa using hk
    have hfin : (shares.map (fun s => s.id)).getD j 0
        = (shares.map (fun s => s.id)).getD k 0 := by
      rw [getD_map shares (fun s => s.id) j 0 default hj,
        getD_map shares (fun s => s.id) k 0 default hk]
      exact hids
    rw [List.getD_eq_getElem _ 0 hj2, List.getD_eq_getElem _ 0 hk2] at hfin
    exact (List.Nodup.getElem_inj_iff hnd).mp hfin
  exact ⟨_, lagrangeInterpolate_ok pts v w hv hw hinj⟩

/-- Under pairwise-distinct byte-range ids and byte-range data, `combine` on at
least two shares succeeds, and the output length is the first share's data
length. -/
theorem combine_ok_of_distinct (shares : List Share)
    (h2 : 2 ≤ shares.length)
    (hnd : (shares.map (fun s => s.id)).Nodup)
    (hid : ∀ s ∈ shares, s.id < 256)
    (hdata : ∀ s ∈ shares, ∀ c ∈ s.data, c < 256) :
    ∃ out, combine shares = .ok out ∧
      out.length = (shares.headD default).data.length := by
  have hf : ∀ b ∈ List.range (shares.headD default).data.length,
      ∃ y, (fun byteIdx => lagrangeInterpolate
        (shares.map (fun s => (s.id, s.data.getD byteIdx 0)))) b = Except.ok y :=
    fun b _ => lagrange_shares_ok shares b hnd hid hdata
  rcases mapM_ok_exists _ _ hf with ⟨out, hout, hlen⟩
  refine ⟨out, ?_, by rw [hlen, List.length_range]⟩
  unfold combine
  rw [if_neg (by omega)]
  exact hout

/-- C7:  `split(secret, N, M)` fails — with one of the three threshold
precondition messages, the spec's `InvalidThreshold` — exactly when the
parameters violate 2 ≤ M ≤ N ≤ 254; within those bounds the checks pass and
`split` returns shares. -/
theorem c7_split_invalid_threshold (secret : List Nat) (N M : Nat) (rng : Nat → Nat → Nat) :
    ((∃ e, split secret N M rng = .error e ∧
        (e = "Threshold cannot exceed number of shares" ∨
         e = "Threshold must be at least 2" ∨
         e = "Maximum 254 shares supported"))
      ↔ ¬(2 ≤ M ∧ M ≤ N ∧ N ≤ 254)) ∧
    (2 ≤ M ∧ M ≤ N ∧ N ≤ 254 → ∃ shares, split secret N M rng = .ok shares) := by
  constructor
  · constructor
    · rintro ⟨e, he, _⟩ hgood
      rw [split_ok secret N M rng hgood.1 hgood.2.1 hgood.2.2] at he
      cases he
    · intro hbad
      unfold split
      by_cases h1 : M > N
      · rw [if_pos h1]
        exact ⟨_, rfl, Or.inl rfl⟩
      · by_cases h2 : M < 2
        · rw [if_neg h1, if_pos h2]
          exact ⟨_, rfl, Or.inr (Or.inl rfl)⟩
        · have h3 : N > 254 := by omega
          rw [if_neg h1, if_neg h2, if_pos h3]
          exact ⟨_, rfl, Or.inr (Or.inr rfl)⟩
  · intro hgood
    exact ⟨_, split_ok secret N M rng hgood.1 hgood.2.1 hgood.2.2⟩

theorem c7_witness :
    (∃ shares, split [1] 3 2 (fun _ _ => 0) = .ok shares) ∧
    (∃ e, split [1] 3 1 (fun _ _ => 0) = .error e ∧
      (e = "Threshold cannot exceed number of shares" ∨
       e = "Threshold must be at least 2" ∨
       e = "Maximum 254 shares supported")) :=
  ⟨(c7_split_invalid_threshold [1] 3 2 (fun _ _ => 0)).2 (by omega),
   (c7_split_invalid_threshold [1] 3 1 (fun _ _ => 0)).1.mpr (by omega)⟩

/-- C8:  `gfDiv` fails iff its divisor is 0; `lagrangeInterpolate` hits a zero
divisor exactly when two points share an id; with pairwise-distinct ids in
[1, 254] (byte data), `combine` on at least two shares returns a result. -/
theorem c8_division_by_zero_safety :
    (∀ a b : Nat, (∃ e, gfDivE a b = .error e) ↔ b = 0) ∧
    (∀ pts : List (Nat × Nat), (∀ j, (pts.getD j (0, 0)).1 < 256) →
      ((∃ e, lagrangeInterpolate pts = .error e) ↔
        ∃ i < pts.length, ∃ j < pts.length, i ≠ j ∧
          (pts.getD i (0, 0)).1 = (pts.getD j (0, 0)).1)) ∧
    (∀ shares : List Share, 2 ≤ shares.length →
      (shares.map (fun s => s.id)).Nodup →
      (∀ s ∈ shares, 1 ≤ s.id ∧ s.id ≤ 254) →
      (∀ s ∈ shares, ∀ c ∈ s.data, c < 256) →
      ∃ out, combine shares = .ok out) := by
  refine ⟨?_, ?_, ?_⟩
  · intro a b
    constructor
    · rintro ⟨e, he⟩
      by_contra hb
      rw [gfDivE, if_neg hb] at he
      by_cases ha : a = 0
      · rw [if_pos ha] at he
        cases he
      · rw [if_neg ha] at he
        cases he
    · intro hb
      subst hb
      exact ⟨_, rfl⟩
  · intro pts hx
    exact lagrangeInterpolate_error_iff pts hx
  · intro shares h2 hnd hid hdata
    rcases combine_ok_of_distinct shares h2 hnd
      (fun s hs => by have := hid s hs; omega) hdata with ⟨out, hout, _⟩
    exact ⟨out, hout⟩

theorem c8_witness :
    ((∃ e, gfDivE 3 0 = .error e) ↔ (0 : Nat) = 0) ∧
    (∃ out, combine [⟨1, 2, 2, [7]⟩, ⟨2, 2, 2, [9]⟩] = .ok out) :=
  ⟨c8_division_by_zero_safety.1 3 0,
   c8_division_by_zero_safety.2.2 [⟨1, 2, 2, [7]⟩, ⟨2, 2, 2, [9]⟩]
     (by decide) (by decide) (by decide) (by decide)⟩

/-- Modelled from the spec: the reference multiplication
`mul(a,b) = 0` if either is 0, else `antilog[(log a + log b) mod 255]`. -/
def refMul (a b : Nat) : Nat :=
  if a = 0 ∨ b = 0 then 0 else EXPT ((LOGT a + LOGT b) % 255)

/-- Modelled from the spec: the reference division for `b ≠ 0`:
0 when `a = 0`, else `antilog[(log a − log b + 255) mod 255]`. -/
def refDiv (a b : Nat) : Nat :=
  if a = 0 then 0 else EXPT ((LOGT a + 255 - LOGT b) % 255)

/-- C9:  The table-based arithmetic matches the spec's reference definitions:
`gfMul` with its unreduced index into the doubled 512-entry antilog table equals
the mod-255-reduced reference, and `gfDiv` computes the reference quotient. -/
theorem c9_table_arithmetic_refinement :
    (∀ a b : Nat, a < 256 → b < 256 → gfMul a b = refMul a b) ∧
    (∀ a b : Nat, a < 256 → b < 256 → 0 < b → gfDivE a b = .ok (refDiv a b)) := by
  constructor
  · intro a b ha hb
    by_cases h0 : a = 0 ∨ b = 0
    · rw [refMul, if_pos h0, gfMul]
      rcases h0 with h | h <;> simp [h]
    · push_neg at h0
      have ha0 : 0 < a := by omega
      have hb0 : 0 < b := by omega
      have hla := LOGT_lt a ha
      have hlb := LOGT_lt b hb
      rw [refMul, if_neg (by tauto), gfMul_pos_eq a b ha0 hb0,
        EXPT_eq _ (by omega), EXPT_eq _ (by omega)]
      congr 1
      omega
  · intro a b ha hb hb0
    rw [gfDivE, if_neg (by omega)]
    by_cases ha0 : a = 0
    · rw [if_pos ha0, refDiv, if_pos ha0]
    · have hla := LOGT_lt a ha
      have hlb := LOGT_lt b hb
      rw [if_neg ha0, refDiv, if_neg ha0]
      have hidx : (((LOGT a : Int) - LOGT b + 255) % 255).toNat
          = (LOGT a + 255 - LOGT b) % 255 := by omega
      rw [hidx]

theorem c9_witness :
    gfMul 7 9 = refMul 7 9 ∧ gfDivE 7 9 = .ok (refDiv 7 9) :=
  ⟨c9_table_arithmetic_refinement.1 7 9 (by omega) (by omega),
   c9_table_arithmetic_refinement.2 7 9 (by omega) (by omega) (by omega)⟩

/-- C10 counterexample:  Two shares with the same id make `combine` throw
`'Division by zero'` instead of returning a byte sequence, refuting the claim
for arbitrary lists of at least two shares. -/
theorem c10_counterexample :
    combine [⟨1, 2, 2, [7]⟩, ⟨1, 2, 2, [9]⟩] = .error "Division by zero" := by rfl

/-- C10 amended:  `combine` rejects fewer than two shares with
`'Need at least 2 shares'`; it never inspects the threshold (or totalShares)
field — its result depends only on the shares' `(id, data)` projections — and
for at least two shares with pairwise-distinct byte-range ids and byte data it
returns a byte sequence whose length is the first share's data length. -/
theorem c10_combine_guard_and_shape :
    (∀ shares : List Share, shares.length < 2 →
      combine shares = .error "Need at least 2 shares") ∧
    (∀ shares shares2 : List Share,
      shares2.map (fun s => (s.id, s.data)) = shares.map (fun s => (s.id, s.data)) →
      combine shares2 = combine shares) ∧
    (∀ shares : List Share, 2 ≤ shares.length →
      (shares.map (fun s => s.id)).Nodup →
      (∀ s ∈ shares, s.id < 256) →
      (∀ s ∈ shares, ∀ c ∈ s.data, c < 256) →
      ∃ out, combine shares = .ok out ∧
        out.length = (shares.headD default).data.length) := by
  refine ⟨?_, ?_, ?_⟩
  · intro shares h2
    unfold combine
    rw [if_pos h2]
  · intro shares shares2 hmap
    have hlen : shares2.length = shares.length := by
      have h1 := congrArg List.length hmap
      simpa using h1
    unfold combine
    by_cases h2 : shares.length < 2
    · rw [if_pos (by omega), if_pos h2]
    · rw [if_neg (by omega), if_neg h2]
      have hne : shares ≠ [] := by
        intro h
        rw [h] at h2
        simp at h2
      have hne2 : shares2 ≠ [] := by
        intro h
        rw [h] at hlen
        simp at hlen
        omega
      have hhead : (shares2.headD default).data = (shares.headD default).data := by
        have h1 := headD_map (fun s => (s.id, s.data)) shares2 (0, []) default hne2
        have h2b := headD_map (fun s => (s.id, s.data)) shares (0, []) default hne
        rw [hmap, h2b] at h1
        exact (congrArg Prod.snd h1).symm
      have hpts : ∀ b, shares2.map (fun s => (s.id, s.data.getD b 0))
          = shares.map (fun s => (s.id, s.data.getD b 0)) := by
        intro b
        have h1 : shares2.map (fun s => (s.id, s.data.getD b 0))
            = (shares2.map (fun s => (s.id, s.data))).map (fun p => (p.1, p.2.getD b 0)) := by
          rw [List.map_map]
          rfl
        rw [h1, hmap, List.map_map]
        rfl
      rw [hhead]
      congr 1
      funext b
      rw [hpts b]
  · intro shares h2 hnd hid hdata
    exact combine_ok_of_distinct shares h2 hnd hid hdata

theorem c10_witness :
    combine [] = .error "Need at least 2 shares" ∧
    combine [⟨1, 9, 9, [7]⟩, ⟨2, 3, 4, [9]⟩] = combine [⟨1, 2, 2, [7]⟩, ⟨2, 2, 2, [9]⟩] ∧
    ∃ out, combine [⟨1, 2, 2, [7]⟩, ⟨2, 2, 2, [9]⟩] = .ok out ∧ out.length = 1 := by
  refine ⟨c10_combine_guard_and_shape.1 [] (by decide),
    c10_combine_guard_and_shape.2.1 _ _ (by decide), ?_⟩
  rcases c10_combine_guard_and_shape.2.2 [⟨1, 2, 2, [7]⟩, ⟨2, 2, 2, [9]⟩]
    (by decide) (by decide) (by decide) (by decide) with ⟨out, hout, hlen⟩
  exact ⟨out, hout, by simpa using hlen⟩

/-! ## CryptoEnvelope — from `crypto.js` (`AegisCrypto`)

`encrypt`/`decrypt` wrap the WebCrypto AES-GCM primitive, which is outside the
repository. Per the spec the primitive is authenticated encryption: a cipher
plus an integrity tag appended to the ciphertext, verified on decryption, with
`AuthenticationError` on any mismatch and no cause disclosed. It is modelled
here as an ideal authenticated cipher: a keystream mask plus a tag that
determines `(key, nonce, plaintext)`. Key derivation is deterministic in
`(passphrase, salt)` and injective in the passphrase, modelling PBKDF2. -/

/-- Injective encoding of a byte list into one natural number. -/
def encodeList (l : List Nat) : Nat :=
  l.foldr (fun a acc => Nat.pair a acc + 1) 0

theorem encodeList_inj : Function.Injective encodeList := by
  intro l1 l2 h
  induction l1 generalizing l2 with
  | nil =>
    cases l2 with
    | nil => rfl
    | cons b t => exact absurd h.symm (Nat.succ_ne_zero _)
  | cons a t ih =>
    cases l2 with
    | nil => exact absurd h (Nat.succ_ne_zero _)
    | cons b t2 =>
      have h2 : Nat.pair a (encodeList t) = Nat.pair b (encodeList t2) :=
        Nat.succ_injective h
      have h3 := Nat.pair_eq_pair.mp h2
      rw [h3.1, ih h3.2]

/-- The passphrase bytes (models `TextEncoder`, an injective encoding). -/
def strBytes (s : String) : List Nat :=
  s.data.map Char.toNat

theorem strBytes_inj : Function.Injective strBytes := by
  intro s1 s2 h
  have hdata : s1.data = s2.data := by
    apply List.map_injective_iff.mpr _ h
    intro c d hcd
    apply Char.eq_of_val_eq
    unfold Char.toNat at hcd
    exact UInt32.eq_of_val_eq (Fin.eq_of_val_eq hcd)
  cases s1
  cases s2
  simp only at hdata
  rw [hdata]

/-- Modelled from the spec: `deriveKey(passphrase, salt)` — deterministic given
`(passphrase, salt)` (PBKDF2-SHA256 at a fixed iteration count, injective in
the passphrase). -/
def deriveKey (passphrase : String) (salt : List Nat) : Nat :=
  Nat.pair (encodeList (strBytes passphrase)) (encodeList salt)

/-- Modelled from the spec: the cipher keystream byte for position `i`. -/
def keystream (key : Nat) (iv : List Nat) (i : Nat) : Nat :=
  Nat.pair key (Nat.pair (encodeList iv) i) % 256

/-- Modelled from the spec: the integrity tag, determining `(key, iv, plaintext)`
(an ideal MAC). -/
def gcmTag (key : Nat) (iv : List Nat) (plain : List Nat) : Nat :=
  Nat.pair key (Nat.pair (encodeList iv) (encodeList plain))

/-- XOR the keystream over the bytes, starting at position `i`. -/
def maskBytes (key : Nat) (iv : List Nat) : Nat → List Nat → List Nat
  | _, [] => []
  | i, byte :: rest => (byte ^^^ keystream key iv i) :: maskBytes key iv (i + 1) rest

/-- Modelled from the spec: AES-GCM encryption output `cipher ‖ tag`. -/
def gcmEncrypt (key : Nat) (iv : List Nat) (data : List Nat) : List Nat :=
  maskBytes key iv 0 data ++ [gcmTag key iv data]

/-- Modelled from the spec: AES-GCM decryption — strip the tag, decipher, and
verify the tag over what was deciphered; `none` on mismatch. -/
def gcmDecrypt (key : Nat) (iv : List Nat) (ct : List Nat) : Option (List Nat) :=
  if ct = [] then none
  else
    let tag := ct.getLastD 0
    let plain := maskBytes key iv 0 ct.dropLast
    if tag = gcmTag key iv plain then some plain else none

/-- The envelope `{ salt, iv, ciphertext }` returned by `encrypt`. -/
structure Envelope where
  salt : List Nat
  iv : List Nat
  ciphertext : List Nat
deriving DecidableEq

/-- The typed failure of `decrypt` (`AuthenticationError`); a single value for
every failure cause. -/
inductive CryptoError where
  | authenticationError
deriving DecidableEq

/-- Source `encrypt(data, passphrase)` with the random salt and iv passed in. -/
def encrypt (data : List Nat) (passphrase : String) (salt iv : List Nat) : Envelope :=
  { salt := salt, iv := iv, ciphertext := gcmEncrypt (deriveKey passphrase salt) iv data }

/-- Source `decrypt(\x7bsalt, iv, ciphertext\x7d, passphrase)`: re-derives the key from the
envelope's salt and authenticates. -/
def decrypt (env : Envelope) (passphrase : String) : Except CryptoError (List Nat) :=
  match gcmDecrypt (deriveKey passphrase env.salt) env.iv env.ciphertext with
  | some plain => .ok plain
  | none => .error .authenticationError

theorem maskBytes_involutive (key : Nat) (iv : List Nat) (l : List Nat) :
    ∀ i, maskBytes key iv i (maskBytes key iv i l) = l := by
  induction l with
  | nil => intro i; rfl
  | cons b t ih =>
    intro i
    show (b ^^^ keystream key iv i ^^^ keystream key iv i) :: _ = _
    rw [Nat.xor_cancel_right, ih (i + 1)]

/-- C2:  Decrypting an `encrypt` envelope with the same passphrase returns
the plaintext unchanged, for every plaintext, passphrase, salt and nonce. -/
theorem c2_decrypt_encrypt_roundtrip (data : List Nat) (passphrase : String)
    (salt iv : List Nat) :
    decrypt (encrypt data passphrase salt iv) passphrase = .ok data := by
  unfold decrypt encrypt gcmEncrypt gcmDecrypt
  simp only
  rw [if_neg (by simp), List.dropLast_concat, List.getLastD_concat,
    maskBytes_involutive, if_pos rfl]

/-- Flip bit `b` of byte `j` of a byte list. -/
def flipBit (l : List Nat) (j b : Nat) : List Nat :=
  l.set j (l.getD j 0 ^^^ 2 ^ b)

theorem deriveKey_inj_pass {p1 p2 : String} {salt : List Nat}
    (h : deriveKey p1 salt = deriveKey p2 salt) : p1 = p2 :=
  strBytes_inj (encodeList_inj (Nat.pair_eq_pair.mp h).1)

theorem maskBytes_length (key : Nat) (iv : List Nat) (l : List Nat) :
    ∀ i, (maskBytes key iv i l).length = l.length := by
  induction l with
  | nil => intro i; rfl
  | cons b t ih =>
    intro i
    show (maskBytes key iv (i + 1) t).length + 1 = t.length + 1
    rw [ih (i + 1)]

theorem maskBytes_set (key : Nat) (iv : List Nat) (l : List Nat) :
    ∀ i j v, maskBytes key iv i (l.set j v)
      = (maskBytes key iv i l).set j (v ^^^ keystream key iv (i + j)) := by
  induction l with
  | nil => intro i j v; rfl
  | cons c t ih =>
    intro i j v
    cases j with
    | zero => rfl
    | succ j2 =>
      show (c ^^^ keystream key iv i) :: maskBytes key iv (i + 1) (t.set j2 v) = _
      rw [ih (i + 1) j2 v]
      have h : i + 1 + j2 = i + (j2 + 1) := by omega
      rw [h]
      rfl

theorem maskBytes_getD (key : Nat) (iv : List Nat) (l : List Nat) :
    ∀ i j, j < l.length →
      (maskBytes key iv i l).getD j 0 = l.getD j 0 ^^^ keystream key iv (i + j) := by
  induction l with
  | nil => intro i j hj; simp at hj
  | cons c t ih =>
    intro i j hj
    cases j with
    | zero =>
      show c ^^^ keystream key iv i = c ^^^ keystream key iv (i + 0)
      rw [Nat.add_zero]
    | succ j2 =>
      show (maskBytes key iv (i + 1) t).getD j2 0 = t.getD j2 0 ^^^ keystream key iv (i + (j2 + 1))
      rw [ih (i + 1) j2 (by simpa using hj)]
      have h : i + 1 + j2 = i + (j2 + 1) := by omega
      rw [h]

theorem set_append_left {α : Type} (l1 l2 : List α) (v : α) :
    ∀ j, j < l1.length → (l1 ++ l2).set j v = l1.set j v ++ l2 := by
  induction l1 with
  | nil => intro j hj; simp at hj
  | cons a t ih =>
    intro j hj
    cases j with
    | zero => rfl
    | succ j2 =>
      show a :: (t ++ l2).set j2 v = a :: (t.set j2 v ++ l2)
      rw [ih j2 (by simpa using hj)]

theorem set_append_last {α : Type} (l1 : List α) (a v : α) :
    (l1 ++ [a]).set l1.length v = l1 ++ [v] := by
  induction l1 with
  | nil => rfl
  | cons c t ih =>
    show c :: (t ++ [a]).set t.length v = c :: (t ++ [v])
    rw [ih]

theorem xor_two_pow_ne (x b : Nat) : x ^^^ 2 ^ b ≠ x := by
  intro h
  have h2 : x ^^^ 2 ^ b = x ^^^ 0 := by rw [Nat.xor_zero]; exact h
  have h3 : 2 ^ b = 0 := Nat.xor_right_injective h2
  exact absurd h3 (Nat.pos_iff_ne_zero.mp (Nat.pos_pow_of_pos b (by omega)))

theorem set_getD_ne (l : List Nat) (j v : Nat) (hj : j < l.length)
    (hv : v ≠ l.getD j 0) : l.set j v ≠ l := by
  intro h
  apply hv
  have h2 : (l.set j v).getD j 0 = l.getD j 0 := by rw [h]
  rw [List.getD_eq_getElem (l.set j v) 0 (by simpa using hj), List.getElem_set_self] at h2
  exact h2

theorem getD_append_left (l1 l2 : List Nat) (j : Nat) (hj : j < l1.length) :
    (l1 ++ l2).getD j 0 = l1.getD j 0 := by
  rw [List.getD_eq_getElem (l1 ++ l2) 0 (by rw [List.length_append]; omega),
    List.getD_eq_getElem l1 0 hj]
  exact List.getElem_append_left hj

theorem getD_concat_length (l : List Nat) (a : Nat) : (l ++ [a]).getD l.length 0 = a := by
  rw [List.getD_eq_getElem (l ++ [a]) 0 (by simp)]
  exact List.getElem_concat_length l a l.length rfl _

/-- C3:  Decrypting with a different passphrase fails with
`AuthenticationError`, and so does decrypting after flipping any single bit of
any byte of `ciphertext ‖ tag`; the error value is the same in both cases, so
the failure does not reveal whether the passphrase was wrong or the data
corrupted. -/
theorem c3_decrypt_tamper_detection (data : List Nat) (passphrase wrongPass : String)
    (salt iv : List Nat) (j b : Nat)
    (hP : wrongPass ≠ passphrase)
    (hj : j < (encrypt data passphrase salt iv).ciphertext.length) :
    decrypt (encrypt data passphrase salt iv) wrongPass
        = .error .authenticationError ∧
    decrypt
      (Envelope.mk salt iv (flipBit (encrypt data passphrase salt iv).ciphertext j b))
      passphrase = .error .authenticationError := by
  set key := deriveKey passphrase salt with hkey
  set body := maskBytes key iv 0 data with hbody
  set tag := gcmTag key iv data with htag
  have hct : (encrypt data passphrase salt iv).ciphertext = body ++ [tag] := rfl
  have hblen : body.length = data.length := maskBytes_length key iv data 0
  constructor
  · show (match gcmDecrypt (deriveKey wrongPass salt) iv (body ++ [tag]) with
      | some plain => Except.ok plain
      | none => Except.error CryptoError.authenticationError)
      = Except.error CryptoError.authenticationError
    rw [gcmDecrypt, if_neg (by simp), List.dropLast_concat, List.getLastD_concat]
    rw [if_neg ?hne]
    case hne =>
      intro heq
      have hk : key = deriveKey wrongPass salt := (Nat.pair_eq_pair.mp heq).1
      exact hP (deriveKey_inj_pass (hkey ▸ hk)).symm
  · rw [hct]
    by_cases hjd : j < data.length
    · have hgd : (body ++ [tag]).getD j 0 = body.getD j 0 :=
        getD_append_left body [tag] j (by omega)
      have hbd : body.getD j 0 = data.getD j 0 ^^^ keystream key iv (0 + j) :=
        maskBytes_getD key iv data 0 j hjd
      show (match gcmDecrypt key iv (flipBit (body ++ [tag]) j b) with
        | some plain => Except.ok plain
        | none => Except.error CryptoError.authenticationError) = _
      have hset : flipBit (body ++ [tag]) j b
          = body.set j ((body ++ [tag]).getD j 0 ^^^ 2 ^ b) ++ [tag] :=
        set_append_left body [tag] _ j (by omega)
      rw [hset, gcmDecrypt, if_neg (by simp), List.dropLast_concat, List.getLastD_concat]
      have hplain : maskBytes key iv 0 (body.set j ((body ++ [tag]).getD j 0 ^^^ 2 ^ b))
          = data.set j (data.getD j 0 ^^^ 2 ^ b) := by
        rw [maskBytes_set, hgd, hbd, maskBytes_involutive]
        have hv : data.getD j 0 ^^^ keystream key iv (0 + j) ^^^ 2 ^ b
            ^^^ keystream key iv (0 + j) = data.getD j 0 ^^^ 2 ^ b := by
          rw [Nat.xor_assoc (data.getD j 0 ^^^ keystream key iv (0 + j)),
            Nat.xor_comm (2 ^ b), ← Nat.xor_assoc, Nat.xor_cancel_right]
        rw [hv]
      rw [hplain, if_neg ?hne2]
      case hne2 =>
        intro heq
        have hpl : encodeList data = encodeList (data.set j (data.getD j 0 ^^^ 2 ^ b)) :=
          (Nat.pair_eq_pair.mp (Nat.pair_eq_pair.mp heq).2).2
        have hne3 : data.set j (data.getD j 0 ^^^ 2 ^ b) ≠ data :=
          set_getD_ne data j _ hjd (xor_two_pow_ne _ b)
        exact hne3 (encodeList_inj hpl.symm)
    · have hjeq : j = data.length := by
        rw [hct, List.length_append, hblen] at hj
        simp at hj
        omega
      have hset : flipBit (body ++ [tag]) j b = body ++ [tag ^^^ 2 ^ b] := by
        rw [flipBit, hjeq, ← hblen, getD_concat_length, set_append_last]
      show (match gcmDecrypt key iv (flipBit (body ++ [tag]) j b) with
        | some plain => Except.ok plain
        | none => Except.error CryptoError.authenticationError) = _
      rw [hset, gcmDecrypt, if_neg (by simp), List.dropLast_concat, List.getLastD_concat,
        maskBytes_involutive, if_neg ?hne4]
      case hne4 =>
        show ¬(tag ^^^ 2 ^ b = gcmTag key iv data)
        rw [← htag]
        exact xor_two_pow_ne tag b

theorem c3_witness :
    decrypt (encrypt [7] "a" [1] [2]) "b" = .error .authenticationError ∧
    decrypt (Envelope.mk [1] [2] (flipBit (encrypt [7] "a" [1] [2]).ciphertext 0 0)) "a"
      = .error .authenticationError :=
  c3_decrypt_tamper_detection [7] "a" "b" [1] [2] 0 0 (by decide) (by decide)

/-! ## CheckinProtocol — from `js/checkin.js` (`AegisCheckin`) -/

/-- Source `getEscalationLevel(lastCheckinTime, intervalHours)`: times are epoch
milliseconds (`Date` values as rationals); the current time is an explicit
argument. A falsy `lastCheckinTime` is `none`. -/
def getEscalationLevel (lastCheckinTime : Option ℚ) (intervalHours : ℚ)
    (nowTime : ℚ) : Nat :=
  match lastCheckinTime with
  | none => 4
  | some last =>
    let elapsed := (nowTime - last) / (1000 * 60 * 60)
    let missedIntervals : ℤ := ⌊elapsed / intervalHours⌋
    if missedIntervals ≤ 0 then 0
    else if missedIntervals = 1 then 1
    else if missedIntervals = 2 then 2
    else if missedIntervals = 3 then 3
    else 4

/-- The pure mapping applied to the missed-interval count. -/
def levelOfMissed (m : Int) : Nat :=
  if m ≤ 0 then 0
  else if m = 1 then 1
  else if m = 2 then 2
  else if m = 3 then 3
  else 4

theorem getEscalationLevel_some (last intervalHours nowTime : ℚ) :
    getEscalationLevel (some last) intervalHours nowTime
      = levelOfMissed ⌊((nowTime - last) / (1000 * 60 * 60)) / intervalHours⌋ := rfl

theorem levelOfMissed_mono : ∀ m1 m2 : Int, m1 ≤ m2 →
    levelOfMissed m1 ≤ levelOfMissed m2 := by
  intro m1 m2 h
  unfold levelOfMissed
  split_ifs <;> omega

/-- C4:  `getEscalationLevel` is a pure function of its arguments: absent
last check-in gives 4; otherwise `missed = ⌊elapsedHours / intervalHours⌋` maps
0→0, 1→1, 2→2, 3→3, ≥4→4 (non-positive values also give 0); for a fixed
positive interval the level is non-decreasing in the current time; zero elapsed
time gives 0; and 100 elapsed hours at a 24-hour interval give 4. -/
theorem c4_escalation_level :
    (∀ intervalHours nowTime : ℚ, getEscalationLevel none intervalHours nowTime = 4) ∧
    (∀ last intervalHours nowTime : ℚ,
      (⌊((nowTime - last) / (1000 * 60 * 60)) / intervalHours⌋ ≤ 0 →
        getEscalationLevel (some last) intervalHours nowTime = 0) ∧
      (∀ k : Nat, 1 ≤ k → k ≤ 3 →
        ⌊((nowTime - last) / (1000 * 60 * 60)) / intervalHours⌋ = k →
        getEscalationLevel (some last) intervalHours nowTime = k) ∧
      (4 ≤ ⌊((nowTime - last) / (1000 * 60 * 60)) / intervalHours⌋ →
        getEscalationLevel (some last) intervalHours nowTime = 4)) ∧
    (∀ last intervalHours n1 n2 : ℚ, 0 < intervalHours → n1 ≤ n2 →
      getEscalationLevel (some last) intervalHours n1
        ≤ getEscalationLevel (some last) intervalHours n2) ∧
    (∀ last intervalHours : ℚ,
      getEscalationLevel (some last) intervalHours last = 0) ∧
    (∀ nowTime : ℚ,
      getEscalationLevel (some (nowTime - 100 * (1000 * 60 * 60))) 24 nowTime = 4) := by
  refine ⟨fun _ _ => rfl, ?_, ?_, ?_, ?_⟩
  · intro last ih now
    refine ⟨?_, ?_, ?_⟩
    · intro h
      rw [getEscalationLevel_some, levelOfMissed, if_pos h]
    · intro k hk1 hk3 hk
      rw [getEscalationLevel_some, levelOfMissed]
      interval_cases k
      · rw [if_neg (by omega), if_pos (by omega)]
      · rw [if_neg (by omega), if_neg (by omega), if_pos (by omega)]
      · rw [if_neg (by omega), if_neg (by omega), if_neg (by omega), if_pos (by omega)]
    · intro h
      rw [getEscalationLevel_some, levelOfMissed,
        if_neg (by omega), if_neg (by omega), if_neg (by omega), if_neg (by omega)]
  · intro last ih n1 n2 hih h12
    rw [getEscalationLevel_some, getEscalationLevel_some]
    apply levelOfMissed_mono
    apply Int.floor_le_floor
    gcongr
  · intro last ih
    rw [getEscalationLevel_some]
    rw [sub_self, zero_div, zero_div, Int.floor_zero]
    rfl
  · intro now
    rw [getEscalationLevel_some]
    have h1 : (now - (now - 100 * (1000 * 60 * 60))) / (1000 * 60 * 60) = 100 := by
      ring_nf
    rw [h1]
    have h2 : ⌊(100 : ℚ) / 24⌋ = 4 := by
      rw [Int.floor_eq_iff]
      norm_num
    rw [h2]
    rfl

theorem c4_witness :
    getEscalationLevel none 24 0 = 4 ∧
    getEscalationLevel (some 0) 24 0 = 0 ∧
    getEscalationLevel (some (360000000 - 100 * (1000 * 60 * 60))) 24 360000000 = 4 ∧
    getEscalationLevel (some 0) 24 0 ≤ getEscalationLevel (some 0) 24 360000000 :=
  ⟨c4_escalation_level.1 24 0,
   c4_escalation_level.2.2.2.1 0 24,
   c4_escalation_level.2.2.2.2 360000000,
   c4_escalation_level.2.2.1 0 24 0 360000000 (by norm_num) (by norm_num)⟩

/-! ### Token generation and verification

`AegisCrypto.sha256`, `btoa`/`atob` and `JSON` are platform primitives.
`sha256` is modelled from the spec as a deterministic 64-hex-character digest;
`btoa` is real base64 over the string's character codes; `atob` and
`JSON.parse` are parameters of `verifyToken` (any decoder), since the claims
about it hold for every decoder. -/

/-- One hex digit (lowercase, as produced by `toString(16)`). -/
def hexDigit (n : Nat) : Char :=
  if n < 10 then Char.ofNat (48 + n) else Char.ofNat (87 + n)

/-- First `fuel` hex digits of `n`, most significant first. -/
def hexChars : Nat → Nat → List Char
  | 0, _ => []
  | fuel + 1, n => hexChars fuel (n / 16) ++ [hexDigit (n % 16)]

/-- Modelled from the spec: `sha256` — a deterministic hex SHA-256 digest
(64 hex characters). -/
def sha256Model (s : String) : String :=
  ⟨hexChars 64 (encodeList (strBytes s) % 2 ^ 256)⟩

theorem hexChars_length (fuel : Nat) : ∀ n, (hexChars fuel n).length = fuel := by
  induction fuel with
  | zero => intro n; rfl
  | succ f ih =>
    intro n
    show (hexChars f (n / 16) ++ [hexDigit (n % 16)]).length = f + 1
    rw [List.length_append, ih (n / 16)]
    rfl

theorem string_mk_length (l : List Char) : (String.mk l).length = l.length := rfl

theorem sha256Model_length (s : String) : (sha256Model s).length = 64 := by
  unfold sha256Model
  rw [string_mk_length]
  exact hexChars_length 64 _

/-- The base64 alphabet. -/
def b64Char (n : Nat) : Char :=
  "ABCDEFGHIJKLMNOPQRSTUVWXYZabcdefghijklmnopqrstuvwxyz0123456789+/".data.getD n 'A'

/-- Base64 encoding of a byte list, with `'='` padding. -/
def base64Encode : List Nat → List Char
  | [] => []
  | [a] => [b64Char (a / 4), b64Char (a % 4 * 16), '=', '=']
  | [a, b] => [b64Char (a / 4), b64Char (a % 4 * 16 + b / 16), b64Char (b % 16 * 4), '=']
  | a :: b :: c :: rest =>
    b64Char (a / 4) :: b64Char (a % 4 * 16 + b / 16) :: b64Char (b % 16 * 4 + c / 64) ::
      b64Char (c % 64) :: base64Encode rest

/-- Model of `btoa` on a string of 8-bit character codes. -/
def btoaStr (s : String) : String :=
  ⟨base64Encode (strBytes s)⟩

theorem base64Encode_length (l : List Nat) :
    (base64Encode l).length = 4 * ((l.length + 2) / 3) := by
  induction l using base64Encode.induct with
  | case1 => rfl
  | case2 a => simp [base64Encode]
  | case3 a b => simp [base64Encode]
  | case4 a b c rest ih =>
    show (base64Encode rest).length + 4 = 4 * ((rest.length + 3 + 2) / 3)
    rw [ih]
    omega

theorem btoaStr_length (s1 s2 : String) (h : s1.length = s2.length) :
    (btoaStr s1).length = (btoaStr s2).length := by
  show (base64Encode (strBytes s1)).length = (base64Encode (strBytes s2)).length
  rw [base64Encode_length, base64Encode_length]
  have h1 : (strBytes s1).length = (strBytes s2).length := by
    show (s1.data.map Char.toNat).length = (s2.data.map Char.toNat).length
    rw [List.length_map, List.length_map]
    exact h
  rw [h1]

/-- The decoded token payload `{t, n, p, _d}` (field `d` models `_d`). -/
structure Payload where
  t : String
  n : String
  p : String
  d : String
deriving DecidableEq

/-- Model of `JSON.stringify` of the payload up to (but not including) the duress
marker value: `{"t":"<t>","n":"<n>","p":"<p>","_d":"`. -/
def payloadStem (t n p : String) : String :=
  "\x7b\"t\":\"" ++ t ++ "\",\"n\":\"" ++ n ++ "\",\"p\":\"" ++ p ++ "\",\"_d\":\""

/-- Model of `JSON.stringify` of the full payload for string fields that need no JSON
escaping (ISO timestamps, hex nonces and package ids). -/
def payloadString (t n p d : String) : String :=
  payloadStem t n p ++ d ++ "\"\x7d"

/-- The visible token `{aegis_checkin, version, timestamp, package, token,
payload}`. -/
structure VisibleToken where
  aegis_checkin : Bool
  version : String
  timestamp : String
  package : String
  token : String
  payload : String
deriving DecidableEq

/-- Source `formatTokenDisplay(token)`:
`AEGIS-<hash prefix, upper-cased>-<date part of the timestamp>`. -/
def formatTokenDisplay (token : VisibleToken) : String :=
  "AEGIS-" ++ String.mk ((token.token.data.take 8).map Char.toUpper) ++ "-"
    ++ String.mk (token.timestamp.data.takeWhile (fun c => c ≠ 'T'))

/-- Result of `generateToken`: `{valid: false}`, or the token record. -/
inductive GenResult where
  | invalid
  | valid (isDuress : Bool) (token : VisibleToken) (displayCode : String)
deriving DecidableEq

/-- Source `generateToken(passphrase, duressPhrase, inputPhrase, packageId)`, with the
timestamp and random nonce as explicit arguments. -/
def generateToken (passphrase duressPhrase inputPhrase packageId : String)
    (timestamp nonce : String) : GenResult :=
  let isDuress := inputPhrase == duressPhrase
  let isValid := (inputPhrase == passphrase) || isDuress
  if !isValid then .invalid
  else
    let tokenString := payloadString timestamp nonce packageId (if isDuress then "1" else "0")
    let tokenHash := sha256Model tokenString
    let visibleToken : VisibleToken :=
      ⟨true, "1.0.0", timestamp, packageId, tokenHash, btoaStr tokenString⟩
    .valid isDuress visibleToken (formatTokenDisplay visibleToken)

/-- Result of `verifyToken`: the verdict record, or the catch-branch record
`{valid: false, status: 'INVALID', error}`. -/
inductive VerifyResult where
  | result (valid isDuress : Bool) (timestamp packageId : String) (ageHours : ℚ)
      (status : String)
  | failed (status error : String)
deriving DecidableEq

/-- The `status` field of either result shape. -/
def VerifyResult.status : VerifyResult → String
  | .result _ _ _ _ _ st => st
  | .failed st _ => st

/-- The `valid` field of either result shape (absent fields are falsy). -/
def VerifyResult.valid : VerifyResult → Bool
  | .result v _ _ _ _ _ => v
  | .failed _ _ => false

/-- Computes `Math.round(ageHours * 10) / 10`. -/
def roundTenth (q : ℚ) : ℚ := (round (q * 10) : ℚ) / 10

/-- Source `verifyToken(tokenObj)`. `atobF` and `parseF` are the platform base64
decoder and `JSON.parse` (arbitrary; a `none` models the decoder throwing,
caught by the `try`/`catch`); `dateF` is `new Date(·)` in epoch milliseconds
and `nowTime` the current time. -/
def verifyToken (atobF : String → Option String) (parseF : String → Option Payload)
    (dateF : String → ℚ) (nowTime : ℚ) (tokenObj : VisibleToken) : VerifyResult :=
  match atobF tokenObj.payload with
  | none => .failed "INVALID" "atob"
  | some payloadStr =>
    match parseF payloadStr with
    | none => .failed "INVALID" "JSON.parse"
    | some payload =>
      let expectedHash := sha256Model payloadStr
      let hashValid := expectedHash == tokenObj.token
      let isDuress := payload.d == "1"
      let tokenTime := dateF payload.t
      let ageHours := (nowTime - tokenTime) / (1000 * 60 * 60)
      .result hashValid isDuress payload.t payload.p (roundTenth ageHours)
        (if isDuress then "DURESS" else if hashValid then "OK" else "INVALID")

/-- C5:  `verifyToken` recomputes the hash over the decoded payload string
and compares it to the token's hash (`valid` is exactly that comparison);
status is `DURESS` when the decoded marker is set, overriding the hash check,
else `OK` on hash match, else `INVALID`; and any token whose payload fails to
decode or parse yields a non-throwing result with status `INVALID` and
`valid = false` (fail closed, no partial trust) — for every decoder. -/
theorem c5_verify_token (atobF : String → Option String)
    (parseF : String → Option Payload) (dateF : String → ℚ) (nowTime : ℚ)
    (tokenObj : VisibleToken) :
    (atobF tokenObj.payload = none →
      (verifyToken atobF parseF dateF nowTime tokenObj).status = "INVALID" ∧
      (verifyToken atobF parseF dateF nowTime tokenObj).valid = false) ∧
    (∀ payloadStr, atobF tokenObj.payload = some payloadStr → parseF payloadStr = none →
      (verifyToken atobF parseF dateF nowTime tokenObj).status = "INVALID" ∧
      (verifyToken atobF parseF dateF nowTime tokenObj).valid = false) ∧
    (∀ payloadStr payload, atobF tokenObj.payload = some payloadStr →
      parseF payloadStr = some payload →
      verifyToken atobF parseF dateF nowTime tokenObj
        = .result (sha256Model payloadStr == tokenObj.token) (payload.d == "1")
            payload.t payload.p
            (roundTenth ((nowTime - dateF payload.t) / (1000 * 60 * 60)))
            (if payload.d == "1" then "DURESS"
             else if sha256Model payloadStr == tokenObj.token then "OK"
             else "INVALID")) := by
  refine ⟨?_, ?_, ?_⟩
  · intro h
    simp only [verifyToken, h]
    exact ⟨rfl, rfl⟩
  · intro payloadStr h1 h2
    simp only [verifyToken, h1, h2]
    exact ⟨rfl, rfl⟩
  · intro payloadStr payload h1 h2
    simp only [verifyToken, h1, h2]

theorem c5_witness :
    ((verifyToken (fun _ => none) (fun _ => none) (fun _ => 0) 0
        ⟨true, "1.0.0", "t", "p", "h", "x"⟩).status = "INVALID" ∧
      (verifyToken (fun _ => none) (fun _ => none) (fun _ => 0) 0
        ⟨true, "1.0.0", "t", "p", "h", "x"⟩).valid = false) ∧
    verifyToken (fun _ => some "s") (fun _ => some ⟨"t", "n", "p", "1"⟩) (fun _ => 0) 0
        ⟨true, "1.0.0", "t", "p", "h", "x"⟩
      = .result (sha256Model "s" == "h") true "t" "p" (roundTenth 0) "DURESS" := by
  constructor
  · exact (c5_verify_token (fun _ => none) (fun _ => none) (fun _ => 0) 0
      ⟨true, "1.0.0", "t", "p", "h", "x"⟩).1 rfl
  · have h := (c5_verify_token (fun _ => some "s")
      (fun _ => some ⟨"t", "n", "p", "1"⟩) (fun _ => 0) 0
      ⟨true, "1.0.0", "t", "p", "h", "x"⟩).2.2 "s" ⟨"t", "n", "p", "1"⟩ rfl rfl
    rw [h]
    norm_num

theorem string_length_data (s : String) : s.length = s.data.length := rfl

theorem string_append_data (s1 s2 : String) : (s1 ++ s2).data = s1.data ++ s2.data := rfl

theorem payloadString_length_eq (t n p d1 d2 : String) (h : d1.length = d2.length) :
    (payloadString t n p d1).length = (payloadString t n p d2).length := by
  unfold payloadString
  rw [string_length_data, string_length_data, string_append_data, string_append_data,
    string_append_data, string_append_data, List.length_append, List.length_append,
    List.length_append, List.length_append]
  rw [string_length_data, string_length_data] at h
  omega

theorem formatTokenDisplay_length (t1 t2 : VisibleToken)
    (hts : t1.timestamp = t2.timestamp) (hh : t1.token.length = t2.token.length) :
    (formatTokenDisplay t1).length = (formatTokenDisplay t2).length := by
  unfold formatTokenDisplay
  have hmk : ∀ l : List Char, (String.mk l).data = l := fun l => rfl
  simp only [string_length_data, string_append_data, List.length_append, hmk,
    List.length_map, List.length_take, hts]
  rw [string_length_data, string_length_data] at hh
  omega

/-- C6:  With the same timestamp, nonce and packageId, the tokens returned
for a duress match and a normal match agree on every field except the hash and
encoded payload, whose underlying payload strings differ only in the duress
marker character (`pre ++ d ++ post` with shared `pre`, `post`); the hash, the
encoded payload and the display code have the same lengths in both, so size
and shape are identical. When the input phrase matches neither passphrase, the
result is the bare non-error `{valid: false}` with no token. -/
theorem c6_duress_normal_same_shape (passphrase duressPhrase packageId timestamp
    nonce : String) (hpd : passphrase ≠ duressPhrase) :
    (∀ inputPhrase, inputPhrase ≠ passphrase → inputPhrase ≠ duressPhrase →
      generateToken passphrase duressPhrase inputPhrase packageId timestamp nonce
        = .invalid) ∧
    (∃ tok1 code1 tok2 code2,
      generateToken passphrase duressPhrase duressPhrase packageId timestamp nonce
        = .valid true tok1 code1 ∧
      generateToken passphrase duressPhrase passphrase packageId timestamp nonce
        = .valid false tok2 code2 ∧
      tok1.aegis_checkin = tok2.aegis_checkin ∧
      tok1.version = tok2.version ∧
      tok1.timestamp = tok2.timestamp ∧
      tok1.package = tok2.package ∧
      tok1.payload = btoaStr (payloadString timestamp nonce packageId "1") ∧
      tok2.payload = btoaStr (payloadString timestamp nonce packageId "0") ∧
      (∀ d, payloadString timestamp nonce packageId d
        = payloadStem timestamp nonce packageId ++ d ++ "\"\x7d") ∧
      tok1.token.length = 64 ∧
      tok2.token.length = 64 ∧
      tok1.payload.length = tok2.payload.length ∧
      code1.length = code2.length) := by
  constructor
  · intro inputPhrase h1 h2
    have hb1 : (inputPhrase == passphrase) = false := beq_eq_false_iff_ne.mpr h1
    have hb2 : (inputPhrase == duressPhrase) = false := beq_eq_false_iff_ne.mpr h2
    simp [generateToken, hb1, hb2]
  · have hb3 : (duressPhrase == duressPhrase) = true := beq_self_eq_true duressPhrase
    have hb4 : (passphrase == passphrase) = true := beq_self_eq_true passphrase
    have hb5 : (passphrase == duressPhrase) = false := beq_eq_false_iff_ne.mpr hpd
    refine ⟨⟨true, "1.0.0", timestamp, packageId,
        sha256Model (payloadString timestamp nonce packageId "1"),
        btoaStr (payloadString timestamp nonce packageId "1")⟩,
      formatTokenDisplay ⟨true, "1.0.0", timestamp, packageId,
        sha256Model (payloadString timestamp nonce packageId "1"),
        btoaStr (payloadString timestamp nonce packageId "1")⟩,
      ⟨true, "1.0.0", timestamp, packageId,
        sha256Model (payloadString timestamp nonce packageId "0"),
        btoaStr (payloadString timestamp nonce packageId "0")⟩,
      formatTokenDisplay ⟨true, "1.0.0", timestamp, packageId,
        sha256Model (payloadString timestamp nonce packageId "0"),
        btoaStr (payloadString timestamp nonce packageId "0")⟩,
      ?_, ?_, rfl, rfl, rfl, rfl, rfl, rfl, fun d => rfl, sha256Model_length _,
      sha256Model_length _, ?_, ?_⟩
    · simp [generateToken, hb3]
    · simp [generateToken, hb4, hb5]
    · exact btoaStr_length _ _ (payloadString_length_eq timestamp nonce packageId "1" "0" rfl)
    · exact formatTokenDisplay_length _ _ rfl
        (by rw [sha256Model_length, sha256Model_length])

theorem c6_witness :
    (generateToken "pass" "dur" "other" "pkg" "2024-01-01T00:00:00.000Z" "ab12"
      = .invalid) ∧
    (∃ tok1 code1 tok2 code2,
      generateToken "pass" "dur" "dur" "pkg" "2024-01-01T00:00:00.000Z" "ab12"
        = .valid true tok1 code1 ∧
      generateToken "pass" "dur" "pass" "pkg" "2024-01-01T00:00:00.000Z" "ab12"
        = .valid false tok2 code2 ∧
      tok1.aegis_checkin = tok2.aegis_checkin ∧
      tok1.version = tok2.version ∧
      tok1.timestamp = tok2.timestamp ∧
      tok1.package = tok2.package ∧
      tok1.payload = btoaStr (payloadString "2024-01-01T00:00:00.000Z" "ab12" "pkg" "1") ∧
      tok2.payload = btoaStr (payloadString "2024-01-01T00:00:00.000Z" "ab12" "pkg" "0") ∧
      (∀ d, payloadString "2024-01-01T00:00:00.000Z" "ab12" "pkg" d
        = payloadStem "2024-01-01T00:00:00.000Z" "ab12" "pkg" ++ d ++ "\"\x7d") ∧
      tok1.token.length = 64 ∧
      tok2.token.length = 64 ∧
      tok1.payload.length = tok2.payload.length ∧
      code1.length = code2.length) :=
  have h := c6_duress_normal_same_shape "pass" "dur" "pkg" "2024-01-01T00:00:00.000Z"
    "ab12" (by decide)
  ⟨h.1 "other" (by decide) (by decide), h.2⟩

end Aegis
